import Mathlib

/-!
# Verification of the `nfx-datatypes` numeric core

Shallow embedding of the repository's two value types and the operations the
specification's claims are about:

* `Int128` — the *emulated* two-word 128-bit signed integer
  (`include/nfx/detail/datatypes/Int128.inl` and the `#else` branches of
  `src/Int128.cpp`), modelled as a pair of `Nat` machine words `< 2^64`,
  with every `uint64_t` computation wrapped `% 2^64` exactly where C++
  unsigned arithmetic wraps.  The *native* `__int128` path is modelled
  separately as integers in `[-2^127, 2^127)` with two's-complement
  wraparound (`NativeI128` below).
* `Decimal` — 32-bit flags word plus three 32-bit mantissa words
  (`src/Decimal.cpp`), modelled as four `Nat` fields.

Value-level meaning functions (`Int128.toNat`, `Int128.toInt`,
`Decimal.ratVal`, literal denotations) are used only in theorem statements
and proofs, never by the embedded code.
-/

set_option maxRecDepth 100000

/-- `2^32`, the `uint32_t` modulus. -/
def U32 : Nat := 4294967296

/-- `2^64`, the `uint64_t` modulus. -/
def U64 : Nat := 18446744073709551616

/-- `2^128`. -/
def U128 : Nat := 340282366920938463463374607431768211456

/-- `uint64_t` subtraction with two's-complement wraparound
(`x - y` in C++ on `uint64_t` operands, for `x y < 2^64`). -/
def wsub64 (x y : Nat) : Nat := (x + U64 - y) % U64

/-- Reinterpret a `uint64_t` bit pattern as `int64_t`
(C++ `static_cast<std::int64_t>`). -/
def sint64 (u : Nat) : Int := if u < 9223372036854775808 then (u : Int) else (u : Int) - U64

/-- The emulated `Int128`: `m_layout.lower64bits` / `m_layout.upper64bits`
(from `Int128.inl`, `#else` branch).  Fields are `uint64_t` machine words. -/
structure Int128 where
  lo : Nat
  hi : Nat
deriving DecidableEq, Repr

/-- Unsigned value of the two words (meaning function for proofs). -/
def Int128.toNat (a : Int128) : Nat := a.lo + a.hi * U64

/-- Two's-complement signed value of the two words (meaning function). -/
def Int128.toInt (a : Int128) : Int :=
  if a.hi < 9223372036854775808 then (a.toNat : Int) else (a.toNat : Int) - U128

/-- Both machine words in range (every value built by the embedded
operations satisfies this). -/
def Int128.wf (a : Int128) : Prop := a.lo < U64 ∧ a.hi < U64

instance (a : Int128) : Decidable a.wf := by unfold Int128.wf; infer_instance

/-- `Int128::Int128(std::uint64_t low, std::uint64_t high)`. -/
def Int128.ofWords (lo hi : Nat) : Int128 := ⟨lo % U64, hi % U64⟩

/-- Constructor from a signed built-in integer
(`Int128::Int128(std::int64_t val)`: low word is the cast bit pattern,
high word is the sign extension `(val < 0) ? -1 : 0`). -/
def Int128.ofInt (val : Int) : Int128 :=
  ⟨((val % (U64 : Int)).toNat) % U64, if val < 0 then U64 - 1 else 0⟩

/-- `Int128::isZero` (emulated): both words zero. -/
def Int128.isZero (a : Int128) : Bool := a.lo = 0 ∧ a.hi = 0

/-- `Int128::isNegative` (emulated): `static_cast<int64_t>(upper64bits) < 0`. -/
def Int128.isNegative (a : Int128) : Bool := sint64 a.hi < 0

/-- `Int128::operator==` (emulated): word-wise comparison. -/
def Int128.eq (a b : Int128) : Bool := a.lo = b.lo ∧ a.hi = b.hi

/-- `Int128::operator<` (emulated): upper words compared as `int64_t`,
lower words as `uint64_t`. -/
def Int128.lt (a b : Int128) : Bool :=
  if a.hi ≠ b.hi then sint64 a.hi < sint64 b.hi else a.lo < b.lo

/-- `Int128::operator<=` (emulated). -/
def Int128.le (a b : Int128) : Bool :=
  if a.hi ≠ b.hi then sint64 a.hi < sint64 b.hi else a.lo ≤ b.lo

/-- `Int128::operator>` (emulated). -/
def Int128.gt (a b : Int128) : Bool :=
  if a.hi ≠ b.hi then sint64 b.hi < sint64 a.hi else b.lo < a.lo

/-- `Int128::operator+` (emulated): word-wise addition with carry
propagation (`carry = result_low < lower64bits ? 1 : 0`). -/
def Int128.add (a b : Int128) : Int128 :=
  let result_low := (a.lo + b.lo) % U64
  let carry := if result_low < a.lo then 1 else 0
  ⟨result_low, (a.hi + b.hi + carry) % U64⟩

/-- `Int128::operator-` (binary, emulated): word-wise subtraction with
borrow (`borrow = lower64bits < other.lower64bits ? 1 : 0`). -/
def Int128.sub (a b : Int128) : Int128 :=
  let borrow := if a.lo < b.lo then 1 else 0
  ⟨wsub64 a.lo b.lo, wsub64 (wsub64 a.hi b.hi) borrow⟩

/-- `Int128::operator-` (unary, emulated): two's-complement negation
`~lo, ~hi` then `+ 1`. -/
def Int128.neg (a : Int128) : Int128 :=
  Int128.add ⟨U64 - 1 - a.lo, U64 - 1 - a.hi⟩ ⟨1, 0⟩

/-- `Int128::abs` (emulated). -/
def Int128.iabs (a : Int128) : Int128 := if a.isNegative then a.neg else a

/-- `Int128::operator*` (emulated): the four 32×32→64 partial products of
the low words with carry folding, plus the additive cross contributions of
the high words.  Each `uint64_t` product/sum is wrapped `% 2^64` as in C++. -/
def Int128.mul (a b : Int128) : Int128 :=
  let a_low := a.lo % U32
  let a_high := a.lo / U32
  let b_low := b.lo % U32
  let b_high := b.lo / U32
  let p0 := a_low * b_low
  let p1 := a_low * b_high
  let p2 := a_high * b_low
  let p3 := a_high * b_high
  let carry := (p0 / U32 + p1 % U32 + p2 % U32) / U32
  let result_low := (p0 + p1 % U32 * U32 + p2 % U32 * U32) % U64
  let result_high :=
    (p3 + p1 / U32 + p2 / U32 + carry + a.hi * b.lo % U64 + a.lo * b.hi % U64) % U64
  ⟨result_low, result_high⟩

/-- Fault type surfaced by the throwing operations
(`std::overflow_error{"Division by zero"}`). -/
inductive DtErr where
  | divisionByZero
deriving DecidableEq, Repr

instance {ε α : Type} [DecidableEq ε] [DecidableEq α] : DecidableEq (Except ε α) :=
  fun a b =>
    match a, b with
    | .error e, .error f => decidable_of_iff (e = f) (by simp)
    | .ok x, .ok y => decidable_of_iff (x = y) (by simp)
    | .error _, .ok _ => isFalse (by simp)
    | .ok _, .error _ => isFalse (by simp)

/-- One step of the general binary long division
(`for i = 127; i >= 0; --i` body of the emulated `Int128::operator/`):
shift the remainder, bring down bit `i` of the dividend, and subtract the
divisor when possible, setting quotient bit `i`. -/
def Int128.divBitStep (absDividend absDivisor : Int128) (i : Nat)
    (qr : Int128 × Int128) : Int128 × Int128 :=
  let quotient := qr.1
  let remainder := Int128.add qr.2 qr.2
  let bit :=
    if 64 ≤ i then absDividend.hi / 2 ^ (i - 64) % 2 = 1
    else absDividend.lo / 2 ^ i % 2 = 1
  let remainder := if bit then Int128.add remainder ⟨1, 0⟩ else remainder
  if ¬ (remainder.lt absDivisor) then
    let remainder := Int128.sub remainder absDivisor
    let quotient :=
      if 64 ≤ i then ⟨quotient.lo, (quotient.hi ||| 2 ^ (i - 64)) % U64⟩
      else ⟨(quotient.lo ||| 2 ^ i) % U64, quotient.hi⟩
    (quotient, remainder)
  else (quotient, remainder)

/-- The 128 iterations of the binary long division: `divBits _ _ n qr`
processes bits `n-1, n-2, …, 0` in that (descending) order starting from
state `qr`, so `divBits _ _ 128 (0, 0)` is the full `i = 127 … 0` loop. -/
def Int128.divBits (absDividend absDivisor : Int128) :
    Nat → Int128 × Int128 → Int128 × Int128
  | 0, qr => qr
  | n + 1, qr =>
    Int128.divBits absDividend absDivisor n
      (Int128.divBitStep absDividend absDivisor n qr)

/-- `Int128::operator/` (emulated, `src/Int128.cpp`): zero check, 64/64
fast path, unsigned 128/64 two-step path, then general signed 128/128
binary long division. -/
def Int128.div (a other : Int128) : Except DtErr Int128 :=
  if other.isZero then .error .divisionByZero
  else if a.hi = 0 ∧ other.hi = 0 then
    .ok ⟨a.lo / other.lo, 0⟩
  else if other.hi = 0 then
    let divisor := other.lo
    let high_quotient := a.hi / divisor
    let high_remainder := a.hi % divisor
    if high_remainder = 0 then
      .ok ⟨a.lo / divisor, high_quotient⟩
    else
      let low_high := a.lo / U32
      let low_low := a.lo % U32
      let temp_dividend := (high_remainder * U32 % U64 + low_high) % U64
      let temp_quotient := temp_dividend / divisor
      let temp_remainder := temp_dividend % divisor
      let final_dividend := (temp_remainder * U32 % U64 + low_low) % U64
      let final_quotient := final_dividend / divisor
      .ok ⟨(temp_quotient * U32 % U64 + final_quotient) % U64, high_quotient⟩
  else
    let result_negative := a.isNegative ≠ other.isNegative
    let abs_dividend := if a.isNegative then a.neg else a
    let abs_divisor := if other.isNegative then other.neg else other
    if abs_dividend.lt abs_divisor then .ok ⟨0, 0⟩
    else if abs_dividend.eq abs_divisor then
      .ok (if result_negative then Int128.sub ⟨0, 0⟩ ⟨1, 0⟩ else ⟨1, 0⟩)
    else
      let quotient := (Int128.divBits abs_dividend abs_divisor 128 (⟨0, 0⟩, ⟨0, 0⟩)).1
      .ok (if result_negative then Int128.sub ⟨0, 0⟩ quotient else quotient)

/-- `Int128::operator%` (emulated, `Int128.inl`): zero check, 64/64 fast
path, otherwise `*this - (*this / other) * other`. -/
def Int128.mod (a other : Int128) : Except DtErr Int128 :=
  if other.isZero then .error .divisionByZero
  else if a.hi = 0 ∧ other.hi = 0 then
    .ok ⟨a.lo % other.lo, 0⟩
  else do
    let quotient ← Int128.div a other
    return Int128.sub a (Int128.mul quotient other)

/-- `Int128::operator/=` (emulated): `*this = *this / other`; the division
operator performs the zero check, so on fault the target keeps its value. -/
def Int128.divAssign (a other : Int128) : Except DtErr Int128 := Int128.div a other

/-- `Int128::operator%=` (emulated): explicit zero check, then
`*this = *this % other`. -/
def Int128.modAssign (a other : Int128) : Except DtErr Int128 :=
  if other.isZero then .error .divisionByZero
  else Int128.mod a other

/-- `constants::DECIMAL_POWERS_OF_10`: 64-bit powers of ten `10^0 … 10^19`. -/
def DECIMAL_POWERS_OF_10 : List Nat :=
  [1, 10, 100, 1000, 10000, 100000, 1000000, 10000000, 100000000, 1000000000,
   10000000000, 100000000000, 1000000000000, 10000000000000, 100000000000000,
   1000000000000000, 10000000000000000, 100000000000000000, 1000000000000000000,
   10000000000000000000]

/-- `constants::DECIMAL_EXTENDED_POWERS_OF_10`: `(low, high)` word pairs of
`10^20 … 10^28`. -/
def DECIMAL_EXTENDED_POWERS_OF_10 : List (Nat × Nat) :=
  [(0x6BC75E2D63100000, 0x05), (0x35C9ADC5DEA00000, 0x36),
   (0x19E0C9BAB2400000, 0x21E), (0x02C7E14AF6800000, 0x152D),
   (0x1BCECCEDA1000000, 0xD3C2), (0x161401484A000000, 0x84595),
   (0xDCC80CD2E4000000, 0x52B7D2), (0x9FD0803CE8000000, 0x33B2E3C),
   (0x3E25026110000000, 0x204FCE5E)]

/-- Fallback iterative computation in `internal::getPowerOf10`
(the `result = result * Int128{10}` loop; dead code for powers ≤ 28). -/
def pow10Loop : Nat → Int128
  | 0 => ⟨1, 0⟩
  | n + 1 => Int128.mul (pow10Loop n) ⟨10, 0⟩

/-- `internal::getPowerOf10`: 64-bit table for powers 0–19, extended
`(low, high)` table for powers 20–28, iterative fallback otherwise. -/
def getPowerOf10 (power : Nat) : Int128 :=
  if power < 20 then ⟨DECIMAL_POWERS_OF_10.getD power 0, 0⟩
  else if 20 ≤ power ∧ power ≤ 28 then
    let extended := DECIMAL_EXTENDED_POWERS_OF_10.getD (power - 20) (0, 0)
    ⟨extended.1, extended.2⟩
  else pow10Loop power

/-- The Decimal layout (`Decimal::m_layout`): one 32-bit flags word (bits
16–23 scale, bit 31 sign) and three 32-bit mantissa words, least
significant first.  All fields are `uint32_t` values `< 2^32`. -/
structure Decimal where
  flags : Nat
  m0 : Nat
  m1 : Nat
  m2 : Nat
deriving DecidableEq, Repr

/-- `Decimal result;` — the zero value produced by the default constructor. -/
def Decimal.zeroD : Decimal := ⟨0, 0, 0, 0⟩

/-- `Decimal::scale()`: `(flags & 0x00FF0000) >> 16`. -/
def Decimal.scale (d : Decimal) : Nat := (d.flags &&& 16711680) >>> 16

/-- `Decimal::isNegative()`: `(flags & 0x80000000) != 0`. -/
def Decimal.isNegative (d : Decimal) : Bool := d.flags &&& 2147483648 ≠ 0

/-- `Decimal::isZero()`: all three mantissa words zero. -/
def Decimal.isZero (d : Decimal) : Bool := d.m0 = 0 ∧ d.m1 = 0 ∧ d.m2 = 0

/-- `internal::mantissaAsInt128` (emulated branch):
`low = (uint64)m1 << 32 | m0`, `high = m2`. -/
def Decimal.mantissaAsInt128 (d : Decimal) : Int128 := ⟨d.m1 * U32 + d.m0, d.m2⟩

/-- `internal::setMantissa` (emulated branch): store the three words via
`uint32_t` casts of `low`, `low >> 32`, `high`. -/
def Decimal.setMantissa (d : Decimal) (value : Int128) : Decimal :=
  { d with m0 := value.lo % U32, m1 := value.lo / U32 % U32, m2 := value.hi % U32 }

/-- `internal::alignScale`: multiply the smaller-scale operand's mantissa by
the needed power of ten. -/
def Decimal.alignScale (d other : Decimal) : Int128 × Int128 :=
  let left := d.mantissaAsInt128
  let right := other.mantissaAsInt128
  if d.scale < other.scale then
    (Int128.mul left (getPowerOf10 (other.scale - d.scale)), right)
  else if other.scale < d.scale then
    (left, Int128.mul right (getPowerOf10 (d.scale - other.scale)))
  else (left, right)

/-- `internal::divideByPowerOf10`.  `getPowerOf10` never returns zero for
the powers used (≤ 28), so the division cannot fault; the error arm is
unreachable. -/
def Decimal.divideByPowerOf10 (d : Decimal) (power : Nat) : Decimal :=
  match Int128.div d.mantissaAsInt128 (getPowerOf10 power) with
  | .ok m => d.setMantissa m
  | .error _ => d

/-- Body of `internal::normalize`: the loop strips one trailing decimal
zero per iteration, decrementing the scale.  Each iteration requires
`scale > 0` and lowers the scale by exactly one, so an initial fuel of the
starting scale makes the recursion equal to the C++ `while` loop. -/
def Decimal.normalizeLoop : Nat → Decimal → Decimal
  | 0, d => d
  | fuel + 1, d =>
    let remIsZero :=
      match Int128.mod d.mantissaAsInt128 ⟨10, 0⟩ with
      | .ok r => r.eq ⟨0, 0⟩
      | .error _ => false
    if decide (0 < d.scale) && remIsZero then
      let d := d.divideByPowerOf10 1
      let currentScale := d.scale
      Decimal.normalizeLoop fuel
        { d with flags := (d.flags &&& 4278255615) ||| ((currentScale - 1) <<< 16) }
    else d

/-- `internal::normalize`. -/
def Decimal.normalize (d : Decimal) : Decimal := Decimal.normalizeLoop d.scale d

/-- `Decimal::operator+`: zero short-circuits, scale alignment, 96-bit
mantissa addition/subtraction with sign resolution, then normalization.
Note the base flags of the result are copied from `*this` with only the
scale field cleared (`m_layout.flags & ~DECIMAL_SCALE_MASK`), so the left
operand's sign bit is retained. -/
def Decimal.add (a other : Decimal) : Decimal :=
  if a.isZero then other
  else if other.isZero then a
  else
    let lr := a.alignScale other
    let left := lr.1
    let right := lr.2
    let result := Decimal.zeroD.setMantissa (Int128.add left right)
    let result := { result with
      flags := (a.flags &&& 4278255615) ||| (max a.scale other.scale <<< 16) }
    let result :=
      if a.isNegative = other.isNegative then
        if a.isNegative then { result with flags := result.flags ||| 2147483648 }
        else result
      else
        if left.gt right then
          let result := result.setMantissa (Int128.sub left right)
          if a.isNegative then { result with flags := result.flags ||| 2147483648 }
          else result
        else
          let result := result.setMantissa (Int128.sub right left)
          if other.isNegative then { result with flags := result.flags ||| 2147483648 }
          else result
    result.normalize

/-- `Decimal::operator-` (binary): flip the right operand's sign bit and add. -/
def Decimal.subOp (a other : Decimal) : Decimal :=
  Decimal.add a { other with flags := other.flags ^^^ 2147483648 }

/-- `Decimal::operator==`: both-zero short-circuit, sign comparison, then
word equality of the scale-aligned mantissas. -/
def Decimal.eqOp (a other : Decimal) : Bool :=
  if a.isZero ∧ other.isZero then true
  else if a.isNegative ≠ other.isNegative then false
  else
    let lr := a.alignScale other
    lr.1.eq lr.2

/-- The dividend pre-scaling loop of `Decimal::operator/`: multiply by ten
and bump the target scale, stopping early when the high word exceeds
`INT128_MUL10_OVERFLOW_THRESHOLD` (`0x1999999999999999`). -/
def Decimal.preScaleLoop : Nat → Int128 → Int → Int128 × Int
  | 0, dividend, targetScale => (dividend, targetScale)
  | fuel + 1, dividend, targetScale =>
    if 1844674407370955161 < dividend.hi then (dividend, targetScale)
    else Decimal.preScaleLoop fuel (Int128.mul dividend ⟨10, 0⟩) (targetScale + 1)

/-- `Decimal::operator/`: zero-divisor fault, zero-dividend short-circuit,
pre-scaling by up to 18 (plus up to 28 more while the target scale is
negative), mantissa division, flags from the raw `int32_t` target scale
cast to `uint32_t` and shifted, sign XOR, normalize.  The inner mantissa
division cannot fault (the divisor mantissa is nonzero here). -/
def Decimal.divOp (a other : Decimal) : Except DtErr Decimal :=
  if other.isZero then .error .divisionByZero
  else if a.isZero then .ok Decimal.zeroD
  else
    let dividend := a.mantissaAsInt128
    let divisor := other.mantissaAsInt128
    let targetScale : Int := (a.scale : Int) - (other.scale : Int)
    let p1 := Decimal.preScaleLoop 18 dividend targetScale
    let p2 := if p1.2 < 0 then Decimal.preScaleLoop (min (-p1.2).toNat 28) p1.1 p1.2
      else p1
    match Int128.div p2.1 divisor with
    | .error e => .error e
    | .ok q =>
      let result := Decimal.zeroD.setMantissa q
      let result := { result with flags := ((p2.2 % (U32 : Int)).toNat <<< 16) % U32 }
      let result :=
        if a.isNegative ≠ other.isNegative then
          { result with flags := result.flags ||| 2147483648 }
        else result
      .ok result.normalize

/-- `Decimal::RoundingMode`. -/
inductive RoundingMode where
  | toNearest
  | toNearestTiesAway
  | toZero
  | toPositiveInfinity
  | toNegativeInfinity
deriving DecidableEq, Repr

/-- `internal::shouldRoundUpToNearest` (banker's rounding decision).  The
`Int128` divisions by the nonzero `divisor` and by ten cannot fault; the
error arms are unreachable. -/
def Decimal.shouldRoundUpToNearest (roundingDigit mantissa divisor : Int128)
    (digitsToRemove : Nat) (result : Decimal) : Bool :=
  if 5 < roundingDigit.lo then true
  else if roundingDigit.lo = 5 then
    let hasRemainingFraction :=
      if 1 < digitsToRemove then
        match Int128.mod mantissa divisor, Int128.div divisor ⟨10, 0⟩ with
        | .ok remainder, .ok divisorDivTen =>
          ¬ remainder.eq (Int128.mul roundingDigit divisorDivTen)
        | _, _ => false
      else false
    if hasRemainingFraction then true
    else
      match Int128.mod result.mantissaAsInt128 ⟨2, 0⟩ with
      | .ok r => ¬ r.eq ⟨0, 0⟩
      | .error _ => false
  else false

/-- `internal::shouldRoundUpToNearestTiesAway`. -/
def Decimal.shouldRoundUpToNearestTiesAway (roundingDigit : Int128) : Bool :=
  5 ≤ roundingDigit.lo

/-- `internal::shouldRoundUpToPositiveInfinity` (ceiling). -/
def Decimal.shouldRoundUpToPositiveInfinity (mantissa : Int128)
    (digitsToRemove : Nat) (isNeg : Bool) : Bool :=
  if isNeg then false
  else if 0 < digitsToRemove then
    match Int128.mod mantissa (getPowerOf10 digitsToRemove) with
    | .ok fractionalPart => ¬ fractionalPart.isZero
    | .error _ => false
  else false

/-- `internal::shouldRoundUpToNegativeInfinity` (floor). -/
def Decimal.shouldRoundUpToNegativeInfinity (mantissa : Int128)
    (digitsToRemove : Nat) (isNeg : Bool) : Bool :=
  if ¬ isNeg then false
  else if 0 < digitsToRemove then
    match Int128.mod mantissa (getPowerOf10 digitsToRemove) with
    | .ok fractionalPart => ¬ fractionalPart.isZero
    | .error _ => false
  else false

/-- The divisor accumulation loop in `Decimal::round`
(`divisor = divisor * Int128{10}` repeated `digitsToRemove - 1` times). -/
def Decimal.mulPow10Loop : Nat → Int128 → Int128
  | 0, x => x
  | n + 1, x => Decimal.mulPow10Loop n (Int128.mul x ⟨10, 0⟩)

/-- The truncation loop in `Decimal::round`
(`divideByPowerOf10(result, 1)` repeated `digitsToRemove` times). -/
def Decimal.iterDivBy10 : Nat → Decimal → Decimal
  | 0, d => d
  | n + 1, d => Decimal.iterDivBy10 n (d.divideByPowerOf10 1)

/-- `Decimal::round`: a negative places count is clamped to zero; a no-op
when the (clamped) count is at least the scale or the value is zero;
otherwise truncate to the target scale and add one mantissa unit when the
mode's predicate says to round up (both sign branches of the C++ increment
add one to the unsigned mantissa). -/
def Decimal.round (d : Decimal) (decimalsPlacesCount : Int) (mode : RoundingMode) : Decimal :=
  let decimalsPlacesCount := if decimalsPlacesCount < 0 then 0 else decimalsPlacesCount
  if (d.scale : Int) ≤ decimalsPlacesCount ∨ d.isZero then d
  else
    let currentScale := d.scale
    let targetScale := decimalsPlacesCount.toNat
    let digitsToRemove := currentScale - targetScale
    let mantissa := d.mantissaAsInt128
    let divisor :=
      if 1 < digitsToRemove then Decimal.mulPow10Loop (digitsToRemove - 1) ⟨1, 0⟩
      else ⟨1, 0⟩
    let roundingDigit :=
      match Int128.div mantissa divisor with
      | .ok q =>
        match Int128.mod q ⟨10, 0⟩ with
        | .ok r => r
        | .error _ => ⟨0, 0⟩
      | .error _ => ⟨0, 0⟩
    let result := Decimal.iterDivBy10 digitsToRemove d
    let result :=
      { result with flags := (result.flags &&& 4278255615) ||| (targetScale <<< 16) }
    let shouldRoundUp :=
      match mode with
      | .toNearest =>
        Decimal.shouldRoundUpToNearest roundingDigit mantissa divisor digitsToRemove result
      | .toNearestTiesAway => Decimal.shouldRoundUpToNearestTiesAway roundingDigit
      | .toZero => false
      | .toPositiveInfinity =>
        Decimal.shouldRoundUpToPositiveInfinity mantissa digitsToRemove d.isNegative
      | .toNegativeInfinity =>
        Decimal.shouldRoundUpToNegativeInfinity mantissa digitsToRemove d.isNegative
    if shouldRoundUp then
      result.setMantissa (Int128.add result.mantissaAsInt128 ⟨1, 0⟩)
    else result

/-- `Decimal::truncate()`. -/
def Decimal.truncateD (d : Decimal) : Decimal := d.round 0 .toZero

/-- `Decimal::floor()`. -/
def Decimal.floorD (d : Decimal) : Decimal := d.round 0 .toNegativeInfinity

/-- `Decimal::ceiling()`. -/
def Decimal.ceilingD (d : Decimal) : Decimal := d.round 0 .toPositiveInfinity

/-- `Decimal::maxValue()`: mantissa `2^96 - 1` (all three words all-ones),
scale 0, positive. -/
def Decimal.maxValue : Decimal := ⟨0, 4294967295, 4294967295, 4294967295⟩

/-- `Decimal::Decimal(std::int64_t)`: sign captured, magnitude stored in
the two low mantissa words via `uint32_t` casts. -/
def Decimal.ofInt (value : Int) : Decimal :=
  let negative := value < 0
  let v := (if value < 0 then -value else value).toNat % U64
  { flags := if negative then 2147483648 else 0,
    m0 := v % U32, m1 := v / U32 % U32, m2 := 0 }

/-- Digit-character test (`str[i] < '0' || str[i] > '9'` negated). -/
def isDigitCh (c : Char) : Bool := '0' ≤ c ∧ c ≤ '9'

/-- `str[i] - '0'`. -/
def digitOf (c : Char) : Nat := c.toNat - 48

/-- The decimal-point scan of `Decimal::tryParse` starting at index `pos`:
rejects on a second point (`decimalCount > 1`), otherwise reports the
point's index in the original string if present. -/
def Decimal.findPoint : List Char → Nat → Option (Option Nat)
  | [], _ => some none
  | c :: rest, i =>
    if c = '.' then
      match Decimal.findPoint rest (i + 1) with
      | some none => some (some i)
      | _ => none
    else Decimal.findPoint rest (i + 1)

/-- Mutable locals of the digit-accumulation loop of `Decimal::tryParse`. -/
structure ParseSt where
  mant : Int128
  sig : Nat
  decDigits : Nat
  hasDigits : Bool
  curScale : Nat
deriving DecidableEq, Repr

/-- The digit-accumulation loop of `Decimal::tryParse` over the characters
from index `pos` on: skips the point, rejects non-digits, and once 28
significant digits were counted corrects the scale to the fractional
digits actually consumed and breaks (dropping the remaining characters,
which the C++ `break` also never inspects).  Significance counting skips
leading zeros only before the decimal point. -/
def Decimal.parseLoop (decPos : Option Nat) : List Char → Nat → ParseSt → Option ParseSt
  | [], _, st => some st
  | c :: rest, i, st =>
    if c = '.' then Decimal.parseLoop decPos rest (i + 1) st
    else if ¬ isDigitCh c then none
    else
      let st := { st with hasDigits := true }
      let digit := digitOf c
      if 28 ≤ st.sig then
        some { st with curScale := if decPos.isSome then st.decDigits else st.curScale }
      else
        let afterPoint : Bool := match decPos with | some p => p < i | none => false
        let st := { st with
          sig := if digit ≠ 0 ∨ ¬ st.mant.eq ⟨0, 0⟩ ∨ afterPoint then st.sig + 1 else st.sig,
          decDigits := if afterPoint then st.decDigits + 1 else st.decDigits }
        Decimal.parseLoop decPos rest (i + 1)
          { st with mant := Int128.add (Int128.mul st.mant ⟨10, 0⟩) ⟨digit, 0⟩ }

/-- First 96-bit overflow trim loop of `Decimal::tryParse`
(`while high > UINT32_MAX && currentScale > 0`): each iteration divides by
ten and lowers the scale, so fuel equal to the starting scale reproduces
the `while`.  Dead code in fact: the 28-digit cap keeps the accumulated
mantissa below `10^28 < 2^96`. -/
def Decimal.trimLoop1 : Nat → Int128 → Nat → Int128 × Nat
  | 0, m, s => (m, s)
  | fuel + 1, m, s =>
    if 4294967295 < m.hi ∧ 0 < s then
      match Int128.div m ⟨10, 0⟩ with
      | .ok q => Decimal.trimLoop1 fuel q (s - 1)
      | .error _ => (m, s)
    else (m, s)

/-- Second trim loop (`while high > UINT32_MAX`).  A 128-bit value has at
most 39 decimal digits, so 40 halvings-by-ten always reach the loop's exit
condition; like the first loop this is dead code under the 28-digit cap. -/
def Decimal.trimLoop2 : Nat → Int128 → Int128
  | 0, m => m
  | fuel + 1, m =>
    if 4294967295 < m.hi then
      match Int128.div m ⟨10, 0⟩ with
      | .ok q => Decimal.trimLoop2 fuel q
      | .error _ => m
    else m

/-- `Decimal::tryParse` over the characters of the input: sign handling,
decimal-point scan with `(uint8)(length - decimalPos - 1)` initial scale
clamped to 28, digit accumulation with the 28-significant-digit cap,
overflow trim, flags assembly and final normalization. -/
def Decimal.tryParse (str : List Char) : Option Decimal :=
  match str with
  | [] => none
  | c0 :: rest0 =>
    let negative := c0 = '-'
    let tail := if c0 = '-' ∨ c0 = '+' then rest0 else str
    let pos := if c0 = '-' ∨ c0 = '+' then 1 else 0
    if tail = [] then none
    else
      match Decimal.findPoint tail pos with
      | none => none
      | some decPos =>
        let currentScale :=
          match decPos with
          | some p =>
            let cs := (str.length - p - 1) % 256
            if 28 < cs then 28 else cs
          | none => 0
        match Decimal.parseLoop decPos tail pos ⟨⟨0, 0⟩, 0, 0, false, currentScale⟩ with
        | none => none
        | some st =>
          if ¬ st.hasDigits then none
          else
            let t1 :=
              if 4294967295 < st.mant.hi then Decimal.trimLoop1 st.curScale st.mant st.curScale
              else (st.mant, st.curScale)
            let t2 := if 4294967295 < t1.1.hi then Decimal.trimLoop2 40 t1.1 else t1.1
            let flags : Nat := if negative then 2147483648 else 0
            let flags := flags ||| (t1.2 <<< 16)
            some (Decimal.normalize
              { flags := flags, m0 := t2.lo % U32, m1 := t2.lo / U32 % U32, m2 := t2.hi % U32 })

/-- The 64-bit fast digit-extraction loop of `Decimal::toString`
(`while value > 0 && digitCount < 64`); fuel is the remaining buffer
capacity `64 - digitCount`, digits appended least significant first. -/
def Decimal.extractFast : Nat → Nat → List Char → List Char
  | 0, _, acc => acc
  | fuel + 1, value, acc =>
    if 0 < value then
      Decimal.extractFast fuel (value / 10) (acc ++ [Char.ofNat (48 + value % 10)])
    else acc

/-- The manual 128-bit digit-extraction loop of `Decimal::toString`:
switches to the 64-bit loop as soon as the high word clears; the divisions
by ten cannot fault. -/
def Decimal.extractManual : Nat → Int128 → List Char → List Char
  | 0, _, acc => acc
  | fuel + 1, m, acc =>
    if ¬ m.isZero then
      if m.hi = 0 then Decimal.extractFast (fuel + 1) m.lo acc
      else
        match Int128.mod m ⟨10, 0⟩, Int128.div m ⟨10, 0⟩ with
        | .ok r, .ok q => Decimal.extractManual fuel q (acc ++ [Char.ofNat (48 + r.lo)])
        | _, _ => acc
    else acc

/-- `Decimal::toString` (emulated branch): digit extraction least
significant first, then assembly most significant first with the stored
scale placing the decimal point and leading zeros inserted when the scale
meets or exceeds the digit count. -/
def Decimal.toString (d : Decimal) : List Char :=
  if d.isZero then ['0']
  else
    let mantissa := d.mantissaAsInt128.iabs
    let currentScale := d.scale
    let digits :=
      if mantissa.hi = 0 then Decimal.extractFast 64 mantissa.lo []
      else Decimal.extractManual 64 mantissa []
    let digits := if digits = [] then ['0'] else digits
    let digitCount := digits.length
    let sign : List Char := if d.isNegative then ['-'] else []
    if 0 < currentScale then
      if digitCount ≤ currentScale then
        sign ++ ['0', '.'] ++ List.replicate (currentScale - digitCount) '0' ++ digits.reverse
      else
        sign ++ (digits.drop currentScale).reverse ++ ['.'] ++ (digits.take currentScale).reverse
    else
      sign ++ digits.reverse

/-- Two's-complement wraparound into `[-2^127, 2^127)` — value arithmetic
of the native `__int128` backing word. -/
def wrap128 (z : Int) : Int := (z + 2 ^ 127) % 2 ^ 128 - 2 ^ 127

/-- Native-path `Int128::operator*` (`m_value * other.m_value` on the
hardware 128-bit word, modelled as its two's-complement value). -/
def nativeMul (a b : Int) : Int := wrap128 (a * b)

/-- Native-path `Int128::operator/`: explicit zero check, then hardware
division, which truncates toward zero. -/
def nativeDiv (a b : Int) : Except DtErr Int :=
  if b = 0 then .error .divisionByZero else .ok (wrap128 (Int.tdiv a b))

/-- Native-path `Int128::operator%`: explicit zero check, then hardware
remainder (truncated, taking the dividend's sign). -/
def nativeMod (a b : Int) : Except DtErr Int :=
  if b = 0 then .error .divisionByZero else .ok (Int.tmod a b)

/-- Native-path `Int128::operator/=` / `%=`: zero check before the member
word is modified, so on fault the target keeps its value. -/
def nativeDivAssign (a b : Int) : Except DtErr Int := nativeDiv a b

/-- Native-path `Int128::operator%=`. -/
def nativeModAssign (a b : Int) : Except DtErr Int := nativeMod a b

/-- A finite-or-special floating-point argument, abstracted by its
classification and its truncation toward zero (`std::trunc`), which is an
integer.  Every operation `Int128::Int128(float)` / `Int128(double)`
performs on the value — `std::isnan`, `std::isinf`, `std::trunc`,
comparisons against integer bounds, the final integer conversion — factors
through these fields exactly. -/
structure FpVal where
  isNan : Bool
  isInf : Bool
  trunc : Int
deriving DecidableEq, Repr

/-- Two's-complement word pair of an integer in `[-2^127, 2^127)`
(meaning-level constructor used by the conversion models). -/
def Int128.ofIntWide (z : Int) : Int128 :=
  ⟨(z % (U128 : Int)).toNat % U64, (z % (U128 : Int)).toNat / U64 % U64⟩

/-- `Int128::Int128(float)`: NaN/Infinity give zero; a truncated magnitude
beyond the `int64_t` range — the comparison bounds
`static_cast<double>(INT64_MAX/INT64_MIN)` are exactly `±2^63` — clamps to
the `int64_t` extremes; otherwise `static_cast<std::int64_t>` (exact for
`|trunc| < 2^63`; `trunc = 2^63` is undefined behaviour in the C++ and is
excluded from every theorem below). -/
def Int128.ofFloat (v : FpVal) : Int128 :=
  if v.isNan ∨ v.isInf then Int128.ofInt 0
  else if 9223372036854775808 < v.trunc ∨ v.trunc < -9223372036854775808 then
    if 0 < v.trunc then Int128.ofInt 9223372036854775807
    else Int128.ofInt (-9223372036854775808)
  else Int128.ofInt v.trunc

/-- `InvalidFormat` fault of the throwing parse entry points
(`std::invalid_argument`). -/
inductive FmtErr where
  | invalidFormat
deriving DecidableEq, Repr

/-- `Int128::Int128(double)`: NaN/Infinity give zero; the overflow bounds
`INT_128_MAX_AS_DOUBLE` / `INT_128_MIN_AS_DOUBLE` are exactly `2^127` and
`-2^127` as doubles, beyond which the value clamps to the `Int128`
extremes; otherwise the value goes through
`Int128::parse(<decimal string of trunc>)`, which is exact for in-range
integers and throws `InvalidFormat` for `trunc = 2^127` (a 39-digit string
above the maximum, reachable since `2^127` is a finite double that escapes
the `>` comparison). -/
def Int128.ofDouble (v : FpVal) : Except FmtErr Int128 :=
  if v.isNan ∨ v.isInf then .ok (Int128.ofInt 0)
  else if 170141183460469231731687303715884105728 < v.trunc then
    .ok ⟨18446744073709551615, 9223372036854775807⟩
  else if v.trunc < -170141183460469231731687303715884105728 then
    .ok ⟨0, 9223372036854775808⟩
  else if 170141183460469231731687303715884105727 < v.trunc ∨
      v.trunc < -170141183460469231731687303715884105728 then
    .error .invalidFormat
  else .ok (Int128.ofIntWide v.trunc)

/-- `Decimal::operator+=` — `*this = *this + other`. -/
def Decimal.addAssign (a other : Decimal) : Decimal := Decimal.add a other

/-- `Decimal::operator/=` — `*this = *this / other`; on fault the target
keeps its prior value. -/
def Decimal.divAssign (a other : Decimal) : Except DtErr Decimal := Decimal.divOp a other

/-! ## Value-level meaning functions (used only in statements and proofs) -/

/-- The rational value `±mantissa / 10^scale` denoted by a Decimal state. -/
def Decimal.ratVal (d : Decimal) : ℚ :=
  (if d.isNegative then -1 else 1) *
    ((d.m2 * U32 * U32 + d.m1 * U32 + d.m0 : Nat) : ℚ) / 10 ^ d.scale

/-- Unsigned mantissa of a Decimal state as a natural number. -/
def Decimal.mantNat (d : Decimal) : Nat := d.m2 * U32 * U32 + d.m1 * U32 + d.m0

/-- A well-formed Decimal state: three `uint32_t` mantissa words and a
flags word holding only the documented fields — sign bit 31 and a scale in
bits 16–23 that is at most 28 (`Decimal.h`: "Scale: 0 to 28 inclusive",
remaining bits "reserved (must be zero)"). -/
def Decimal.Valid (d : Decimal) : Prop :=
  d.m0 < U32 ∧ d.m1 < U32 ∧ d.m2 < U32 ∧
  ∃ σ s, (σ = 0 ∨ σ = 1) ∧ s ≤ 28 ∧ d.flags = σ * 2147483648 + s * 65536

/-- Numeric value of a digit-character list read most significant first. -/
def digitsVal (l : List Char) : Nat := l.foldl (fun a c => 10 * a + digitOf c) 0

/-- Numeric value of a decimal literal built from a sign, integer digits,
and fractional digits: `±(digits of both parts) / 10^(fraction length)`. -/
def litVal (negative : Bool) (ds1 ds2 : List Char) : ℚ :=
  (if negative then -1 else 1) * ((digitsVal (ds1 ++ ds2) : ℚ) / 10 ^ ds2.length)

/-- Canonical decimal literal per the spec: an optional `-`, an integer
part with no leading zero unless it is the single digit `0`, and — when a
decimal point is present — a nonempty minimal fractional part (its last
digit nonzero). -/
def canonicalLit (s : List Char) : Prop :=
  ∃ ds1 ds2 : List Char,
    (s = ds1 ∨ s = '-' :: ds1 ∨ s = ds1 ++ '.' :: ds2 ∨ s = '-' :: (ds1 ++ '.' :: ds2)) ∧
    (∀ c ∈ ds1, isDigitCh c) ∧ (∀ c ∈ ds2, isDigitCh c) ∧ ds1 ≠ [] ∧
    (ds1 = ['0'] ∨ ds1.head? ≠ some '0') ∧
    ((s = ds1 ∨ s = '-' :: ds1) ∨ (ds2 ≠ [] ∧ ds2.getLast? ≠ some '0'))

/-- The value a literal truncates to under the parser's 28-digit cap,
where every fractional digit counts against the cap (leading fractional
zeros included) and integer-part leading zeros are skipped: with
`c1 = ds1` minus its leading zeros, a literal with at least 28 counted
integer digits keeps `c1`'s first 28 digits at scale 0, and otherwise
keeps `min |ds2| (28 - |c1|)` fractional digits. -/
def truncLitVal (negative : Bool) (ds1 ds2 : List Char) : ℚ :=
  let c1 := ds1.dropWhile (· = '0')
  if 28 ≤ c1.length then
    (if negative then -1 else 1) * (digitsVal (c1.take 28) : ℚ)
  else
    let k := min ds2.length (28 - c1.length)
    (if negative then -1 else 1) * ((digitsVal (ds1 ++ ds2.take k) : ℚ) / 10 ^ k)

/-- Meaning-level state builder (proof side only): the well-formed Decimal
state with sign `σneg`, unsigned mantissa `M < 2^96` split into its three
words, and scale `s`. -/
def Decimal.mkCanon (σneg : Bool) (M s : Nat) : Decimal :=
  ⟨(if σneg then 2147483648 else 0) + s * 65536,
    M % U32, M / U32 % U32, M / U32 / U32 % U32⟩

/-- A state is normalized when its scale is zero or its mantissa has no
trailing decimal zero (the exit condition of `internal::normalize`). -/
def Decimal.IsNormalized (d : Decimal) : Prop :=
  d.scale = 0 ∨ ¬ (10 ∣ d.mantNat)

/-! ## Basic facts about the embedding -/

theorem U32_eq : U32 = 2 ^ 32 := by decide

theorem U64_eq : U64 = 2 ^ 64 := by decide

theorem U128_eq : U128 = 2 ^ 128 := by norm_num [U128]

/-- The two lookup tables of `internal::getPowerOf10` hold exactly the
powers of ten, word-split. -/
theorem getPowerOf10_toNat : ∀ power ≤ 28, (getPowerOf10 power).toNat = 10 ^ power := by
  decide

theorem getPowerOf10_wf : ∀ power ≤ 28, (getPowerOf10 power).wf := by
  decide

/-- `Int128::Int128(std::int64_t)` stores the two's-complement value it was
given (for in-range arguments). -/
theorem Int128.toInt_ofInt (z : Int) (h1 : -9223372036854775808 ≤ z)
    (h2 : z < 9223372036854775808) : (Int128.ofInt z).toInt = z := by
  unfold Int128.ofInt Int128.toInt Int128.toNat U64 U128
  split <;> rename_i hz
  · simp only [if_pos hz]
    omega
  · simp only [if_neg hz]
    omega

theorem Int128.toInt_ofInt_witness : (Int128.ofInt (-5)).toInt = -5 :=
  Int128.toInt_ofInt (-5) (by decide) (by decide)

/-- `Int128.ofIntWide` stores the two's-complement value of any integer in
the 128-bit range. -/
theorem Int128.toInt_ofIntWide (z : Int)
    (h1 : -170141183460469231731687303715884105728 ≤ z)
    (h2 : z < 170141183460469231731687303715884105728) :
    (Int128.ofIntWide z).toInt = z := by
  simp only [Int128.ofIntWide, Int128.toInt, Int128.toNat, U64, U128]
  split <;> omega

theorem Int128.toInt_ofIntWide_witness : (Int128.ofIntWide (-5)).toInt = -5 :=
  Int128.toInt_ofIntWide (-5) (by decide) (by decide)

/-! ## Claim theorems -/

/-- Claim C1: for Decimals whose addition involves no clamping or
truncation, `a + b` equals `b + a`, including mixed signs.  The code
refutes this: `Decimal::operator+` seeds the result flags with
`m_layout.flags & ~DECIMAL_SCALE_MASK`, which retains the *left*
operand's sign bit, and the different-signs branch only ever ORs a sign
in, never clears it.  So `Decimal(-1) + Decimal(2)` evaluates to `-1`
while `Decimal(2) + Decimal(-1)` evaluates to `1`, and the two results
compare unequal under `Decimal::operator==`. -/
theorem claim_C1_add_not_commutative :
    Decimal.add (Decimal.ofInt (-1)) (Decimal.ofInt 2) = ⟨2147483648, 1, 0, 0⟩ ∧
    Decimal.add (Decimal.ofInt 2) (Decimal.ofInt (-1)) = ⟨0, 1, 0, 0⟩ ∧
    Decimal.ratVal ⟨2147483648, 1, 0, 0⟩ = -1 ∧
    Decimal.ratVal ⟨0, 1, 0, 0⟩ = 1 ∧
    Decimal.eqOp (Decimal.add (Decimal.ofInt (-1)) (Decimal.ofInt 2))
      (Decimal.add (Decimal.ofInt 2) (Decimal.ofInt (-1))) = false := by
  refine ⟨by decide, by decide, ?_, ?_, by decide⟩ <;>
  · simp [Decimal.ratVal,
      show Decimal.isNegative ⟨2147483648, 1, 0, 0⟩ = true from by decide,
      show Decimal.isNegative ⟨0, 1, 0, 0⟩ = false from by decide,
      show Decimal.scale ⟨2147483648, 1, 0, 0⟩ = 0 from by decide,
      show Decimal.scale ⟨0, 1, 0, 0⟩ = 0 from by decide]

/-- Claim C2: every arithmetic result satisfies the representation
invariant, in particular `scale ≤ 28`.  The code refutes this for
division: `Decimal::operator/` pre-scales the dividend by up to 18 extra
digits and never clamps the resulting target scale, so dividing the valid,
normalized operand `10^-28` (mantissa 1, scale 28) by `3` produces a state
whose stored scale field reads 46 — beyond the documented 0–28 range. -/
theorem claim_C2_division_scale_overflows :
    (⟨1835008, 1, 0, 0⟩ : Decimal).Valid ∧ Decimal.scale ⟨1835008, 1, 0, 0⟩ = 28 ∧
    Decimal.divOp ⟨1835008, 1, 0, 0⟩ (Decimal.ofInt 3) =
      .ok ⟨3014656, 2367771989, 77610214, 0⟩ ∧
    Decimal.scale ⟨3014656, 2367771989, 77610214, 0⟩ = 46 := by
  refine ⟨⟨by decide, by decide, by decide, 0, 28, Or.inl rfl, by decide, by decide⟩,
    by decide, by decide, by decide⟩

/-- Claim C5: `ToNearest` rounds away from zero whenever the first
discarded digit is 5 and any nonzero digit remains beyond it — the spec's
own example being `round(2.55, 0) = 3`.  The code refutes this:
`internal::shouldRoundUpToNearest` compares `mantissa % divisor` (the
digits *below* the rounding digit) against `roundingDigit * (divisor/10)`
— an off-by-one power of ten — so for `2.55` (mantissa 255, scale 2) the
trailing `5` is mistaken for "no remaining fraction" and the tie-to-even
path returns `2`.  The adjacent documented examples `2.5 → 2` and
`3.5 → 4` do hold. -/
theorem claim_C5_bankers_rounding_remainder_check :
    Decimal.round ⟨131072, 255, 0, 0⟩ 0 .toNearest = ⟨0, 2, 0, 0⟩ ∧
    Decimal.ratVal ⟨131072, 255, 0, 0⟩ = 255 / 100 ∧
    Decimal.ratVal ⟨0, 2, 0, 0⟩ = 2 ∧
    Decimal.round ⟨65536, 25, 0, 0⟩ 0 .toNearest = ⟨0, 2, 0, 0⟩ ∧
    Decimal.round ⟨65536, 35, 0, 0⟩ 0 .toNearest = ⟨0, 4, 0, 0⟩ := by
  refine ⟨by decide, ?_, ?_, by decide, by decide⟩ <;>
  · simp [Decimal.ratVal,
      show Decimal.isNegative ⟨131072, 255, 0, 0⟩ = false from by decide,
      show Decimal.isNegative ⟨0, 2, 0, 0⟩ = false from by decide,
      show Decimal.scale ⟨131072, 255, 0, 0⟩ = 2 from by decide,
      show Decimal.scale ⟨0, 2, 0, 0⟩ = 0 from by decide]
    try norm_num

/-- Claim C7: `Int128::operator%` always gives a result with the
dividend's sign (or zero) of magnitude below `|divisor|`.  The emulated
path refutes the sign property: the unsigned 128/64 division branch never
re-applies signs, so `(-1) % 2` evaluates to `+1` (the native path's
hardware remainder gives `-1`). -/
theorem claim_C7_emulated_mod_wrong_sign :
    Int128.mod (Int128.ofInt (-1)) (Int128.ofInt 2) = .ok ⟨1, 0⟩ ∧
    Int128.toInt ⟨1, 0⟩ = 1 ∧
    (Int128.ofInt (-1)).isNegative = true ∧
    nativeMod (-1) 2 = .ok (-1) := by
  refine ⟨by decide, by decide, by decide, by decide⟩

/-- Claim C9: for operands whose magnitudes fit in 64 bits, the emulated
multiply/divide equal the native 128-bit results.  The divide part is
refuted: the emulated `operator/` reaches its unsigned 128/64 branch for a
negative dividend and a small positive divisor, reads the dividend's two's
complement words as an unsigned value and never re-applies the sign, so
`(-1) / 2` evaluates to `2^127 - 1` where the native path gives `0`. -/
theorem claim_C9_emulated_div_diverges_from_native :
    Int128.div (Int128.ofInt (-1)) (Int128.ofInt 2) =
      .ok ⟨18446744073709551615, 9223372036854775807⟩ ∧
    Int128.toInt ⟨18446744073709551615, 9223372036854775807⟩ =
      170141183460469231731687303715884105727 ∧
    nativeDiv (-1) 2 = .ok 0 := by
  refine ⟨by decide, by decide, by decide⟩

/-- Claim C10: a negative requested places count is silently clamped to
zero: `x.round(n, m) = x.round(0, m)` for every state, every mode and
every `n < 0` (first statement of `Decimal::round`). -/
theorem claim_C10_negative_places_clamped (d : Decimal) (n : Int)
    (m : RoundingMode) (hn : n < 0) : d.round n m = d.round 0 m := by
  unfold Decimal.round
  norm_num [hn]

theorem claim_C10_witness :
    ((-3 : Int) < 0) ∧
      Decimal.round ⟨131072, 255, 0, 0⟩ (-3) .toZero =
        Decimal.round ⟨131072, 255, 0, 0⟩ 0 .toZero :=
  ⟨by decide, claim_C10_negative_places_clamped ⟨131072, 255, 0, 0⟩ (-3) .toZero (by decide)⟩

/-- Claim C6: dividing by a zero of the type (and `Int128` modulo by zero)
faults with DivisionByZero on every path — `Decimal::operator/`, emulated
`Int128::operator/`, `%`, `/=`, `%=`, and the native-path operators — and
no partial result is produced: each operation yields the fault instead of
a value, and the compound assignments perform their zero check (or
delegate to an operator that does) before the target is modified, so the
target retains its prior value exactly as the claim states. -/
theorem claim_C6_division_by_zero_faults (aD bD : Decimal) (aI bI : Int128)
    (aN bN : Int) (hD : bD.isZero = true) (hI : bI.isZero = true) (hN : bN = 0) :
    Decimal.divOp aD bD = .error .divisionByZero ∧
    Decimal.divAssign aD bD = .error .divisionByZero ∧
    Int128.div aI bI = .error .divisionByZero ∧
    Int128.mod aI bI = .error .divisionByZero ∧
    Int128.divAssign aI bI = .error .divisionByZero ∧
    Int128.modAssign aI bI = .error .divisionByZero ∧
    nativeDiv aN bN = .error .divisionByZero ∧
    nativeMod aN bN = .error .divisionByZero ∧
    nativeDivAssign aN bN = .error .divisionByZero ∧
    nativeModAssign aN bN = .error .divisionByZero := by
  subst hN
  refine ⟨?_, ?_, ?_, ?_, ?_, ?_, ?_, ?_, ?_, ?_⟩ <;>
    simp [Decimal.divOp, Decimal.divAssign, Int128.div, Int128.mod,
      Int128.divAssign, Int128.modAssign, nativeDiv, nativeMod,
      nativeDivAssign, nativeModAssign, hD, hI]

theorem claim_C6_witness :
    (Decimal.zeroD.isZero = true) ∧ ((⟨0, 0⟩ : Int128).isZero = true) ∧
      ((0 : Int) = 0) ∧
      Decimal.divOp (Decimal.ofInt 7) Decimal.zeroD = .error .divisionByZero ∧
      Int128.mod (Int128.ofInt 7) ⟨0, 0⟩ = .error .divisionByZero :=
  ⟨by decide, by decide, rfl,
    (claim_C6_division_by_zero_faults (Decimal.ofInt 7) Decimal.zeroD
      (Int128.ofInt 7) ⟨0, 0⟩ 7 0 (by decide) (by decide) rfl).1,
    (claim_C6_division_by_zero_faults (Decimal.ofInt 7) Decimal.zeroD
      (Int128.ofInt 7) ⟨0, 0⟩ 7 0 (by decide) (by decide) rfl).2.2.2.1⟩

/-- Claim C8 counterexample: the claim says a finite float inside the
Int128 range — such as `1e20f`, whose exact value is
`100000002004087734272 = 11368684 · 2^43` — converts to its truncated
value rather than being clamped.  The code clamps floats already at the
`int64_t` range: the constructor yields `2^63 - 1`. -/
theorem claim_C8_float_1e20_clamped :
    (100000002004087734272 : Int) < 2 ^ 127 ∧
    Int128.ofFloat ⟨false, false, 100000002004087734272⟩ =
      Int128.ofInt 9223372036854775807 ∧
    (Int128.ofFloat ⟨false, false, 100000002004087734272⟩).toInt =
      9223372036854775807 := by
  refine ⟨by decide, by decide, by decide⟩

/-- Claim C3 counterexample: the claim asserts `parse(format(x)) == x` for
every Decimal, in particular for `Decimal::maxValue()` whose decimal form
has 29 digits.  Formatting `maxValue` indeed gives the 29-digit literal,
but parsing caps accumulated significant digits at 28, so the re-parsed
value is `maxValue` with its last digit dropped (mantissa
`7922816251426433759354395033`, scale 0), which compares unequal to
`maxValue` under `Decimal::operator==`. -/
theorem claim_C3_maxValue_roundtrip_fails :
    Decimal.toString Decimal.maxValue = "79228162514264337593543950335".toList ∧
    Decimal.tryParse (Decimal.toString Decimal.maxValue) =
      some ⟨0, 2576980377, 2576980377, 429496729⟩ ∧
    Decimal.mantNat ⟨0, 2576980377, 2576980377, 429496729⟩ =
      7922816251426433759354395033 ∧
    Decimal.mantNat Decimal.maxValue = 79228162514264337593543950335 ∧
    Decimal.eqOp ⟨0, 2576980377, 2576980377, 429496729⟩ Decimal.maxValue = false := by
  refine ⟨by decide, by decide, by decide, by decide, by decide⟩

/-- Claim C4 counterexample: the claim asserts the parsed value equals the
literal truncated to its first 28 significant digits.  The literal
`0.00000000000000000000000000012` has only two significant digits, so that
truncation is the literal itself, of value `12 / 10^29`; but the parser
counts every fractional digit — leading zeros included — against the
28-digit cap, drops the final `2` and records scale 28, yielding
`1 / 10^28`. -/
theorem claim_C4_leading_fraction_zeros_hit_cap :
    Decimal.tryParse "0.00000000000000000000000000012".toList =
      some ⟨1835008, 1, 0, 0⟩ ∧
    Decimal.ratVal ⟨1835008, 1, 0, 0⟩ = 1 / 10 ^ 28 ∧
    litVal false "0".toList "00000000000000000000000000012".toList = 12 / 10 ^ 29 ∧
    (1 / 10 ^ 28 : ℚ) ≠ 12 / 10 ^ 29 := by
  refine ⟨by decide, ?_, ?_, by norm_num⟩
  · simp [Decimal.ratVal,
      show Decimal.isNegative ⟨1835008, 1, 0, 0⟩ = false from by decide,
      show Decimal.scale ⟨1835008, 1, 0, 0⟩ = 28 from by decide]
  · simp only [litVal]
    rw [show digitsVal ("0".toList ++ "00000000000000000000000000012".toList)
        = 12 from by decide]
    norm_num

/-- Claim C8 amended: `Int128` construction from float/double truncates
toward zero and maps NaN/Infinity to zero, but the *float* constructor
clamps already at the `int64_t` range (magnitudes beyond `2^63` go to the
`int64_t` extremes — so `1e20f` yields `2^63 - 1`, not its truncated
value); the *double* constructor clamps beyond `±2^127` to the `Int128`
extremes, converts exactly in range, and for a truncated value of exactly
`2^127` (a finite double escaping the `>` bound) faults InvalidFormat in
the string-parse step instead of clamping.  (`trunc = 2^63` is C++ UB in
the float path and is excluded.) -/
theorem claim_C8_amended_fp_conversion (v : FpVal)
    (hnan : v.isNan = false) (hinf : v.isInf = false)
    (hub : v.trunc ≠ 9223372036854775808) :
    (Int128.ofFloat v).toInt =
      (if 9223372036854775808 < v.trunc then 9223372036854775807
       else if v.trunc < -9223372036854775808 then -9223372036854775808
       else v.trunc) ∧
    (∀ w : FpVal, w.isNan = true ∨ w.isInf = true →
      Int128.ofFloat w = Int128.ofInt 0 ∧ Int128.ofDouble w = .ok (Int128.ofInt 0)) ∧
    (170141183460469231731687303715884105728 < v.trunc →
      Int128.ofDouble v = .ok ⟨18446744073709551615, 9223372036854775807⟩ ∧
      Int128.toInt ⟨18446744073709551615, 9223372036854775807⟩ =
        170141183460469231731687303715884105727) ∧
    (v.trunc < -170141183460469231731687303715884105728 →
      Int128.ofDouble v = .ok ⟨0, 9223372036854775808⟩ ∧
      Int128.toInt ⟨0, 9223372036854775808⟩ =
        -170141183460469231731687303715884105728) ∧
    (-170141183460469231731687303715884105728 ≤ v.trunc ∧
        v.trunc ≤ 170141183460469231731687303715884105727 →
      (Int128.ofDouble v).map Int128.toInt = .ok v.trunc) ∧
    (v.trunc = 170141183460469231731687303715884105728 →
      Int128.ofDouble v = .error .invalidFormat) := by
  have hsp : ¬ (v.isNan = true ∨ v.isInf = true) := by simp [hnan, hinf]
  refine ⟨?_, ?_, ?_, ?_, ?_, ?_⟩
  · unfold Int128.ofFloat
    rw [if_neg hsp]
    by_cases h1 : 9223372036854775808 < v.trunc
    · rw [if_pos (Or.inl h1), if_pos (show (0 : Int) < v.trunc by omega), if_pos h1]
      exact Int128.toInt_ofInt _ (by omega) (by omega)
    · by_cases h2 : v.trunc < -9223372036854775808
      · rw [if_pos (Or.inr h2), if_neg (show ¬ (0 : Int) < v.trunc by omega),
          if_neg h1, if_pos h2]
        exact Int128.toInt_ofInt _ (by omega) (by omega)
      · rw [if_neg (show ¬ (9223372036854775808 < v.trunc ∨
            v.trunc < -9223372036854775808) by tauto), if_neg h1, if_neg h2]
        exact Int128.toInt_ofInt _ (by omega) (by omega)
  · intro w hw
    constructor
    · unfold Int128.ofFloat
      rw [if_pos (by rcases hw with h | h <;> simp [h])]
    · unfold Int128.ofDouble
      rw [if_pos (by rcases hw with h | h <;> simp [h])]
  · intro h
    refine ⟨?_, by decide⟩
    unfold Int128.ofDouble
    rw [if_neg hsp, if_pos h]
  · intro h
    refine ⟨?_, by decide⟩
    unfold Int128.ofDouble
    rw [if_neg hsp, if_neg (by omega), if_pos h]
  · intro h
    unfold Int128.ofDouble
    rw [if_neg hsp, if_neg (by omega), if_neg (by omega), if_neg (by omega)]
    simp only [Except.map]
    rw [Int128.toInt_ofIntWide v.trunc (by omega) (by omega)]
  · intro h
    unfold Int128.ofDouble
    rw [if_neg hsp, if_neg (by omega), if_neg (by omega), if_pos (by omega)]

theorem claim_C8_amended_witness :
    ((⟨false, false, 100⟩ : FpVal).isNan = false) ∧
    ((⟨false, false, 100⟩ : FpVal).isInf = false) ∧
    ((⟨false, false, 100⟩ : FpVal).trunc ≠ 9223372036854775808) ∧
    (Int128.ofFloat ⟨false, false, 100⟩).toInt =
      (if 9223372036854775808 < (100 : Int) then 9223372036854775807
       else if (100 : Int) < -9223372036854775808 then -9223372036854775808
       else 100) :=
  ⟨rfl, rfl, by decide,
    (claim_C8_amended_fp_conversion ⟨false, false, 100⟩ rfl rfl (by decide)).1⟩

/-! ## Int128 word-level bridge lemmas -/

theorem Int128.toNat_lt (a : Int128) (ha : a.wf) : a.toNat < U128 := by
  obtain ⟨h1, h2⟩ := ha
  simp only [Int128.toNat, U64, U128] at *
  omega

theorem Int128.eq_true_iff (a b : Int128) : a.eq b = true ↔ a = b := by
  simp only [Int128.eq, decide_eq_true_eq, Bool.and_eq_true]
  constructor
  · rintro ⟨h1, h2⟩
    cases a; cases b
    simp_all
  · rintro rfl
    simp

theorem Int128.toNat_inj (a b : Int128) (ha : a.wf) (hb : b.wf)
    (h : a.toNat = b.toNat) : a = b := by
  obtain ⟨h1, h2⟩ := ha
  obtain ⟨h3, h4⟩ := hb
  cases a; cases b
  simp only [Int128.toNat, U64, U128] at *
  simp only [Int128.mk.injEq]
  omega

theorem Int128.add_wf (a b : Int128) : (a.add b).wf := by
  simp only [Int128.add, Int128.wf, U64]
  omega

theorem Int128.add_toNat (a b : Int128) (ha : a.wf) (hb : b.wf) :
    (a.add b).toNat = (a.toNat + b.toNat) % U128 := by
  obtain ⟨h1, h2⟩ := ha
  obtain ⟨h3, h4⟩ := hb
  simp only [Int128.add, Int128.toNat, U64, U128] at *
  split <;> omega

theorem Int128.sub_wf (a b : Int128) : (a.sub b).wf := by
  simp only [Int128.sub, Int128.wf, wsub64, U64]
  omega

theorem Int128.sub_toNat (a b : Int128) (ha : a.wf) (hb : b.wf) :
    (a.sub b).toNat = (a.toNat + U128 - b.toNat) % U128 := by
  obtain ⟨h1, h2⟩ := ha
  obtain ⟨h3, h4⟩ := hb
  simp only [Int128.sub, Int128.toNat, wsub64, U64, U128] at *
  split <;> omega

theorem Int128.mul_wf (a b : Int128) : (a.mul b).wf := by
  simp only [Int128.mul, Int128.wf, U64]
  omega

theorem Int128.mul_toNat (a b : Int128) (ha : a.wf) (hb : b.wf) :
    (a.mul b).toNat = a.toNat * b.toNat % U128 := by
  obtain ⟨h1, h2⟩ := ha
  obtain ⟨h3, h4⟩ := hb
  simp only [Int128.mul, Int128.toNat, U32, U64, U128] at *
  have key : a.lo * b.lo =
      a.lo % 4294967296 * (b.lo % 4294967296) +
        (a.lo % 4294967296 * (b.lo / 4294967296) +
          a.lo / 4294967296 * (b.lo % 4294967296)) * 4294967296 +
        a.lo / 4294967296 * (b.lo / 4294967296) * 18446744073709551616 := by
    conv_lhs => rw [← Nat.div_add_mod a.lo 4294967296, ← Nat.div_add_mod b.lo 4294967296]
    ring
  have key2 : (a.lo + a.hi * 18446744073709551616) * (b.lo + b.hi * 18446744073709551616) =
      a.lo * b.lo + (a.hi * b.lo + a.lo * b.hi) * 18446744073709551616 +
        a.hi * b.hi * 340282366920938463463374607431768211456 := by
    ring
  have hb0 : a.lo % 4294967296 * (b.lo % 4294967296) < 18446744073709551616 := by
    have := Nat.mod_lt a.lo (show 0 < 4294967296 by decide)
    have := Nat.mod_lt b.lo (show 0 < 4294967296 by decide)
    calc a.lo % 4294967296 * (b.lo % 4294967296) ≤ 4294967295 * 4294967295 :=
          Nat.mul_le_mul (by omega) (by omega)
      _ < 18446744073709551616 := by decide
  have hb1 : a.lo % 4294967296 * (b.lo / 4294967296) < 18446744073709551616 := by
    calc a.lo % 4294967296 * (b.lo / 4294967296) ≤ 4294967295 * 4294967295 :=
          Nat.mul_le_mul (by omega) (by omega)
      _ < 18446744073709551616 := by decide
  have hb2 : a.lo / 4294967296 * (b.lo % 4294967296) < 18446744073709551616 := by
    calc a.lo / 4294967296 * (b.lo % 4294967296) ≤ 4294967295 * 4294967295 :=
          Nat.mul_le_mul (by omega) (by omega)
      _ < 18446744073709551616 := by decide
  have hb3 : a.lo / 4294967296 * (b.lo / 4294967296) < 18446744073709551616 := by
    calc a.lo / 4294967296 * (b.lo / 4294967296) ≤ 4294967295 * 4294967295 :=
          Nat.mul_le_mul (by omega) (by omega)
      _ < 18446744073709551616 := by decide
  rw [key2]
  omega

/-- Exact multiplication: when the true product fits in 128 bits the
emulated multiply computes it. -/
theorem Int128.mul_toNat_of_lt (a b : Int128) (ha : a.wf) (hb : b.wf)
    (h : a.toNat * b.toNat < U128) : (a.mul b).toNat = a.toNat * b.toNat := by
  rw [Int128.mul_toNat a b ha hb, Nat.mod_eq_of_lt h]

theorem Int128.wf_eta (a : Int128) (ha : a.wf) : a = ⟨a.toNat % U64, a.toNat / U64⟩ := by
  obtain ⟨h1, h2⟩ := ha
  cases a
  simp only [Int128.toNat, U64, Int128.mk.injEq] at *
  omega

/-- The emulated division by `Int128{10}` computes the exact quotient (all
three reachable branches: 64/64 fast path, the 128/64 path with the high
word divisible by ten, and the two-step 32-bit long division). -/
theorem Int128.div_ten_eq (a : Int128) (ha : a.wf) :
    a.div ⟨10, 0⟩ = .ok ⟨a.toNat / 10 % U64, a.toNat / 10 / U64⟩ := by
  obtain ⟨h1, h2⟩ := ha
  simp only [U64] at h1 h2
  unfold Int128.div
  rw [if_neg (by decide)]
  by_cases hhi : a.hi = 0
  · rw [if_pos ⟨hhi, rfl⟩]
    simp only [Int128.toNat, U64, Except.ok.injEq, Int128.mk.injEq]
    omega
  · rw [if_neg (fun hc => hhi hc.1), if_pos rfl]
    by_cases hr : a.hi % 10 = 0
    · simp only [if_pos hr, Int128.toNat, U64, Except.ok.injEq, Int128.mk.injEq]
      omega
    · simp only [if_neg hr, Int128.toNat, U32, U64, Except.ok.injEq, Int128.mk.injEq]
      have s1 : a.hi % 10 * 4294967296 % 18446744073709551616 = a.hi % 10 * 4294967296 := by
        omega
      rw [s1]
      have s2 : (a.hi % 10 * 4294967296 + a.lo / 4294967296) % 18446744073709551616 =
          a.hi % 10 * 4294967296 + a.lo / 4294967296 := by omega
      rw [s2]
      set td := a.hi % 10 * 4294967296 + a.lo / 4294967296 with htd
      have htdlt : td < 10 * 4294967296 := by omega
      have s3 : td % 10 * 4294967296 % 18446744073709551616 = td % 10 * 4294967296 := by omega
      rw [s3]
      have s4 : (td % 10 * 4294967296 + a.lo % 4294967296) % 18446744073709551616 =
          td % 10 * 4294967296 + a.lo % 4294967296 := by omega
      rw [s4]
      set fd := td % 10 * 4294967296 + a.lo % 4294967296 with hfd
      have hfdlt : fd < 10 * 4294967296 := by omega
      have s5 : td / 10 * 4294967296 % 18446744073709551616 = td / 10 * 4294967296 := by omega
      rw [s5]
      have s6 : (td / 10 * 4294967296 + fd / 10) % 18446744073709551616 =
          td / 10 * 4294967296 + fd / 10 := by omega
      rw [s6]
      have key : a.lo + a.hi * 18446744073709551616 =
          10 * (a.hi / 10 * 18446744073709551616 + td / 10 * 4294967296 + fd / 10) +
            fd % 10 := by omega
      constructor
      · omega
      · omega

/-- The emulated `% Int128{10}` computes the exact remainder. -/
theorem Int128.mod_ten_eq (a : Int128) (ha : a.wf) :
    a.mod ⟨10, 0⟩ = .ok ⟨a.toNat % 10, 0⟩ := by
  have ha' := ha
  obtain ⟨h1, h2⟩ := ha'
  simp only [U64] at h1 h2
  unfold Int128.mod
  rw [if_neg (by decide)]
  by_cases hhi : a.hi = 0
  · rw [if_pos ⟨hhi, rfl⟩]
    simp only [Int128.toNat, U64, Except.ok.injEq, Int128.mk.injEq]
    exact ⟨by omega, trivial⟩
  · rw [if_neg (fun hc => hhi hc.1)]
    rw [show (do
        let quotient ← a.div ⟨10, 0⟩
        return a.sub (quotient.mul ⟨10, 0⟩) : Except DtErr Int128) =
      (a.div ⟨10, 0⟩).bind fun quotient => .ok (a.sub (quotient.mul ⟨10, 0⟩)) from rfl]
    rw [Int128.div_ten_eq a ha]
    show Except.ok (a.sub (Int128.mul ⟨a.toNat / 10 % U64, a.toNat / 10 / U64⟩ ⟨10, 0⟩)) = _
    have halt := Int128.toNat_lt a ha
    simp only [U128] at halt
    have hqwf : (⟨a.toNat / 10 % U64, a.toNat / 10 / U64⟩ : Int128).wf := by
      constructor <;> simp only [U64] <;> omega
    have hq10 : (⟨a.toNat / 10 % U64, a.toNat / 10 / U64⟩ : Int128).toNat = a.toNat / 10 := by
      simp only [Int128.toNat, U64]
      omega
    have hmul : (Int128.mul ⟨a.toNat / 10 % U64, a.toNat / 10 / U64⟩ ⟨10, 0⟩).toNat =
        a.toNat / 10 * 10 := by
      rw [Int128.mul_toNat _ _ hqwf (by constructor <;> decide), hq10]
      rw [show (⟨10, 0⟩ : Int128).toNat = 10 from by decide]
      simp only [U128]
      omega
    have hsub : (a.sub (Int128.mul ⟨a.toNat / 10 % U64, a.toNat / 10 / U64⟩ ⟨10, 0⟩)).toNat =
        a.toNat % 10 := by
      rw [Int128.sub_toNat a _ ha (Int128.mul_wf _ _), hmul]
      simp only [U128]
      omega
    rw [Int128.toNat_inj (a.sub (Int128.mul ⟨a.toNat / 10 % U64, a.toNat / 10 / U64⟩ ⟨10, 0⟩))
      ⟨a.toNat % 10, 0⟩ (Int128.sub_wf _ _)
      (by constructor <;> simp only [U64] <;> omega)
      (by rw [hsub]; simp only [Int128.toNat]; omega)]

/-! ## Flags-word bridge lemmas (bounded bitwise facts settled by `decide`) -/

theorem flagsScale : ∀ σ < 2, ∀ s < 29,
    ((σ * 2147483648 + s * 65536) &&& 16711680) >>> 16 = s := by decide

theorem flagsUpdate : ∀ σ < 2, ∀ s < 29, ∀ t < 29,
    ((σ * 2147483648 + s * 65536) &&& 4278255615) ||| (t <<< 16) =
      σ * 2147483648 + t * 65536 := by decide

theorem flagsSign : ∀ σ < 2, ∀ s < 29,
    (decide ((σ * 2147483648 + s * 65536) &&& 2147483648 ≠ 0) = decide (σ = 1)) := by decide

theorem flagsBuild : ∀ t < 29,
    ((2147483648 : Nat) ||| (t <<< 16) = 2147483648 + t * 65536) ∧
      ((0 : Nat) ||| (t <<< 16) = t * 65536) := by decide

/-! ## mkCanon state lemmas -/

theorem Decimal.mkCanon_eta (d : Decimal) (hv : d.Valid) :
    ∃ σn s, s ≤ 28 ∧ d = Decimal.mkCanon σn d.mantNat s ∧
      d.flags = (if σn then 2147483648 else 0) + s * 65536 := by
  obtain ⟨hm0, hm1, hm2, σ, s, hσ, hs, hflags⟩ := hv
  refine ⟨σ = 1, s, hs, ?_, ?_⟩
  · cases d
    simp only [Decimal.mkCanon, Decimal.mantNat, Decimal.mk.injEq] at *
    simp only [U32] at *
    rcases hσ with h | h <;> subst h <;> subst hflags <;>
      refine ⟨by simp, by omega, by omega, by omega⟩
  · rcases hσ with h | h <;> subst h <;> simp [hflags]

theorem Decimal.mantNat_mkCanon (σn : Bool) (M s : Nat) (hM : M < U32 * U32 * U32) :
    (Decimal.mkCanon σn M s).mantNat = M := by
  simp only [Decimal.mkCanon, Decimal.mantNat, U32] at *
  omega

theorem Decimal.scale_mkCanon (σn : Bool) (M s : Nat) (hs : s < 29) :
    (Decimal.mkCanon σn M s).scale = s := by
  have h := flagsScale (if σn then 1 else 0) (by cases σn <;> simp) s hs
  cases σn <;> simpa [Decimal.mkCanon, Decimal.scale] using h

theorem Decimal.isNegative_mkCanon (σn : Bool) (M s : Nat) (hs : s < 29) :
    (Decimal.mkCanon σn M s).isNegative = σn := by
  have h := flagsSign (if σn then 1 else 0) (by cases σn <;> simp) s hs
  cases σn <;> simpa [Decimal.mkCanon, Decimal.isNegative] using h

theorem Decimal.valid_mkCanon (σn : Bool) (M s : Nat) (hs : s ≤ 28) :
    (Decimal.mkCanon σn M s).Valid := by
  refine ⟨?_, ?_, ?_, if σn then 1 else 0, s, by cases σn <;> simp, hs,
      by cases σn <;> simp [Decimal.mkCanon]⟩
    <;> simp only [Decimal.mkCanon, U32] <;> omega

theorem Decimal.isZero_mkCanon (σn : Bool) (M s : Nat) (hM : M < U32 * U32 * U32) :
    (Decimal.mkCanon σn M s).isZero = decide (M = 0) := by
  simp only [Decimal.mkCanon, Decimal.isZero, U32] at *
  rcases Nat.eq_zero_or_pos M with h | h
  · subst h
    simp
  · have : ¬ (M % 4294967296 = 0 ∧ M / 4294967296 % 4294967296 = 0 ∧
        M / 4294967296 / 4294967296 % 4294967296 = 0) := by omega
    simp only [decide_eq_decide]
    omega

theorem Decimal.mantissaAsInt128_mkCanon (σn : Bool) (M s : Nat)
    (hM : M < U32 * U32 * U32) :
    (Decimal.mkCanon σn M s).mantissaAsInt128 = ⟨M % U64, M / U64⟩ := by
  simp only [Decimal.mkCanon, Decimal.mantissaAsInt128, Int128.mk.injEq, U32, U64] at *
  omega

/-- The rational value of a canonical state. -/
theorem Decimal.ratVal_mkCanon (σn : Bool) (M s : Nat) (hM : M < U32 * U32 * U32)
    (hs : s < 29) :
    (Decimal.mkCanon σn M s).ratVal = (if σn then -1 else 1) * (M : ℚ) / 10 ^ s := by
  unfold Decimal.ratVal
  rw [Decimal.isNegative_mkCanon σn M s hs]
  rw [show ((Decimal.mkCanon σn M s).m2 * U32 * U32 + (Decimal.mkCanon σn M s).m1 * U32 +
      (Decimal.mkCanon σn M s).m0 : Nat) = (Decimal.mkCanon σn M s).mantNat from rfl]
  rw [Decimal.mantNat_mkCanon σn M s hM, Decimal.scale_mkCanon σn M s hs]

/-- One unfolding of the `internal::normalize` loop. -/
theorem Decimal.normalizeLoop_succ (fuel : Nat) (d : Decimal) :
    Decimal.normalizeLoop (fuel + 1) d =
      if (decide (0 < d.scale) && (match Int128.mod d.mantissaAsInt128 ⟨10, 0⟩ with
          | .ok r => r.eq ⟨0, 0⟩
          | .error _ => false)) = true then
        Decimal.normalizeLoop fuel
          { d.divideByPowerOf10 1 with flags :=
              ((d.divideByPowerOf10 1).flags &&& 4278255615) |||
                (((d.divideByPowerOf10 1).scale - 1) <<< 16) }
      else d := rfl

/-- Behaviour of the normalize loop on canonical states: it strips `k`
trailing decimal zeros, divides the mantissa by `10^k` and lowers the
scale by `k`, stopping at fuel exhaustion, scale zero, or a nonzero last
digit. -/
theorem Decimal.normalizeLoop_mkCanon (fuel : Nat) :
    ∀ (σn : Bool) (M s : Nat), M < U32 * U32 * U32 → s < 29 →
    ∃ k, k ≤ s ∧ k ≤ fuel ∧ 10 ^ k ∣ M ∧
      Decimal.normalizeLoop fuel (Decimal.mkCanon σn M s) =
        Decimal.mkCanon σn (M / 10 ^ k) (s - k) ∧
      (k = fuel ∨ s - k = 0 ∨ ¬ (10 ∣ M / 10 ^ k)) := by
  induction fuel with
  | zero =>
    intro σn M s hM hs
    exact ⟨0, by omega, by omega, by simp, by simp [Decimal.normalizeLoop], Or.inl rfl⟩
  | succ fuel ih =>
    intro σn M s hM hs
    have hscale := Decimal.scale_mkCanon σn M s hs
    have hmant := Decimal.mantissaAsInt128_mkCanon σn M s hM
    by_cases hcond : 0 < s ∧ M % 10 = 0
    · obtain ⟨hspos, hdvd⟩ := hcond
      have hwf : (⟨M % U64, M / U64⟩ : Int128).wf := by
        constructor <;> simp only [U32, U64] at * <;> omega
      have htoNat : (⟨M % U64, M / U64⟩ : Int128).toNat = M := by
        simp only [Int128.toNat, U32, U64] at *
        omega
      have hmod := Int128.mod_ten_eq ⟨M % U64, M / U64⟩ hwf
      rw [htoNat] at hmod
      have hdiv := Int128.div_ten_eq ⟨M % U64, M / U64⟩ hwf
      rw [htoNat] at hdiv
      have hdp : (Decimal.mkCanon σn M s).divideByPowerOf10 1 =
          Decimal.mkCanon σn (M / 10) s := by
        unfold Decimal.divideByPowerOf10
        rw [show getPowerOf10 1 = (⟨10, 0⟩ : Int128) from by decide, hmant, hdiv]
        simp only [Decimal.setMantissa, Decimal.mkCanon, Decimal.mk.injEq, U32, U64] at *
        refine ⟨trivial, by omega, by omega, by omega⟩
      have hstep : Decimal.normalizeLoop (fuel + 1) (Decimal.mkCanon σn M s) =
          Decimal.normalizeLoop fuel (Decimal.mkCanon σn (M / 10) (s - 1)) := by
        rw [Decimal.normalizeLoop_succ, hmant, hmod]
        have hc : (decide (0 < (Decimal.mkCanon σn M s).scale) &&
            Int128.eq ⟨M % 10, 0⟩ ⟨0, 0⟩) = true := by
          rw [hscale]
          simp [Int128.eq, hspos, hdvd]
        rw [show (match (Except.ok ⟨M % 10, 0⟩ : Except DtErr Int128) with
            | .ok r => r.eq ⟨0, 0⟩
            | .error _ => false) = Int128.eq ⟨M % 10, 0⟩ ⟨0, 0⟩ from rfl]
        rw [if_pos hc, hdp, Decimal.scale_mkCanon σn (M / 10) s hs]
        have hflag : (((Decimal.mkCanon σn (M / 10) s).flags &&& 4278255615) |||
            ((s - 1) <<< 16)) = (if σn then 2147483648 else 0) + (s - 1) * 65536 := by
          have h1 := flagsUpdate (if σn then 1 else 0) (by cases σn <;> simp) s hs (s - 1)
            (by omega)
          cases σn <;> simpa [Decimal.mkCanon] using h1
        rw [hflag]
        rfl
      obtain ⟨k, hk1, hk2, hk3, hk4, hk5⟩ := ih σn (M / 10) (s - 1) (by omega) (by omega)
      refine ⟨k + 1, by omega, by omega, ?_, ?_, ?_⟩
      · obtain ⟨c, hc⟩ := hk3
        refine ⟨c, ?_⟩
        have h10 : M = 10 * (M / 10) := by omega
        rw [h10, hc, pow_succ]
        ring
      · rw [hstep, hk4]
        congr 1
        · rw [Nat.div_div_eq_div_mul, pow_succ']
        · omega
      · rcases hk5 with h | h | h
        · exact Or.inl (by omega)
        · exact Or.inr (Or.inl (by omega))
        · refine Or.inr (Or.inr ?_)
          rw [Nat.div_div_eq_div_mul, ← pow_succ'] at h
          exact h
    · refine ⟨0, by omega, by omega, by simp, ?_, ?_⟩
      · rw [Decimal.normalizeLoop_succ]
        have hc : ¬ ((decide (0 < (Decimal.mkCanon σn M s).scale) &&
            (match Int128.mod (Decimal.mkCanon σn M s).mantissaAsInt128 ⟨10, 0⟩ with
            | .ok r => r.eq ⟨0, 0⟩
            | .error _ => false)) = true) := by
          have hwf : (⟨M % U64, M / U64⟩ : Int128).wf := by
            constructor <;> simp only [U32, U64] at * <;> omega
          have htoNat : (⟨M % U64, M / U64⟩ : Int128).toNat = M := by
            simp only [Int128.toNat, U32, U64] at *
            omega
          have hmod := Int128.mod_ten_eq ⟨M % U64, M / U64⟩ hwf
          rw [htoNat] at hmod
          rw [hmant, hmod, hscale]
          simp only [Bool.and_eq_true, decide_eq_true_eq, not_and]
          intro hs0
          simp only [Int128.eq, Int128.mk.injEq]
          simp only [decide_eq_true_eq]
          intro hcontra
          exact hcond ⟨hs0, hcontra.1⟩
        rw [if_neg hc]
        simp
      · rcases Nat.eq_zero_or_pos s with h | h
        · exact Or.inr (Or.inl (by omega))
        · refine Or.inr (Or.inr ?_)
          simp only [pow_zero, Nat.div_one]
          intro hcontra
          exact hcond ⟨h, by omega⟩

theorem Decimal.mantNat_lt (d : Decimal) (hv : d.Valid) : d.mantNat < U32 * U32 * U32 := by
  obtain ⟨hm0, hm1, hm2, -⟩ := hv
  simp only [Decimal.mantNat, U32] at *
  omega

theorem Decimal.mantissaAsInt128_spec (d : Decimal) (hv : d.Valid) :
    d.mantissaAsInt128.wf ∧ d.mantissaAsInt128.toNat = d.mantNat := by
  obtain ⟨hm0, hm1, hm2, -⟩ := hv
  simp only [Decimal.mantissaAsInt128, Int128.wf, Int128.toNat, Decimal.mantNat,
    U32, U64] at *
  omega

/-- `internal::normalize` on a canonical state strips some `k` trailing
zeros and ends normalized. -/
theorem Decimal.normalize_mkCanon (σn : Bool) (M s : Nat)
    (hM : M < U32 * U32 * U32) (hs : s < 29) :
    ∃ k, k ≤ s ∧ 10 ^ k ∣ M ∧
      (Decimal.mkCanon σn M s).normalize = Decimal.mkCanon σn (M / 10 ^ k) (s - k) ∧
      (s - k = 0 ∨ ¬ (10 ∣ M / 10 ^ k)) := by
  unfold Decimal.normalize
  rw [Decimal.scale_mkCanon σn M s hs]
  obtain ⟨k, h1, h2, h3, h4, h5⟩ := Decimal.normalizeLoop_mkCanon s σn M s hM hs
  refine ⟨k, h1, h3, h4, ?_⟩
  rcases h5 with h | h | h
  · exact Or.inl (by omega)
  · exact Or.inl h
  · exact Or.inr h

/-- Stripping trailing zeros preserves the denoted rational value. -/
theorem Decimal.ratVal_strip (σn : Bool) (M s k : Nat) (hM : M < U32 * U32 * U32)
    (hks : k ≤ s) (hs : s < 29) (hdvd : 10 ^ k ∣ M) :
    (Decimal.mkCanon σn (M / 10 ^ k) (s - k)).ratVal = (Decimal.mkCanon σn M s).ratVal := by
  rw [Decimal.ratVal_mkCanon σn (M / 10 ^ k) (s - k)
      (lt_of_le_of_lt (Nat.div_le_self _ _) hM) (by omega),
    Decimal.ratVal_mkCanon σn M s hM hs]
  obtain ⟨c, rfl⟩ := hdvd
  rw [Nat.mul_div_cancel_left c (Nat.pos_pow_of_pos k (by omega))]
  have hpow : (10 : ℚ) ^ s = 10 ^ k * 10 ^ (s - k) := by
    rw [← pow_add]
    congr 1
    omega
  push_cast
  rw [hpow]
  have h1 : (10 : ℚ) ^ k ≠ 0 := by positivity
  have h2 : (10 : ℚ) ^ (s - k) ≠ 0 := by positivity
  field_simp
  ring

/-- `Decimal::operator==` returns true on valid states denoting the same
rational value (the scale alignment cannot overflow there: the aligned
mantissa equals the other operand's mantissa, which is below `2^96`). -/
theorem Decimal.eqOp_of_ratVal (a b : Decimal) (ha : a.Valid) (hb : b.Valid)
    (h : a.ratVal = b.ratVal) : a.eqOp b = true := by
  obtain ⟨σa, sa, hsa, hea, hfa⟩ := Decimal.mkCanon_eta a ha
  obtain ⟨σb, sb, hsb, heb, hfb⟩ := Decimal.mkCanon_eta b hb
  have hMa := Decimal.mantNat_lt a ha
  have hMb := Decimal.mantNat_lt b hb
  obtain ⟨Ma, hMadef⟩ : ∃ M, M = a.mantNat := ⟨a.mantNat, rfl⟩
  obtain ⟨Mb, hMbdef⟩ : ∃ M, M = b.mantNat := ⟨b.mantNat, rfl⟩
  rw [← hMadef] at hea hMa
  rw [← hMbdef] at heb hMb
  rw [hea, heb] at h ⊢
  rw [Decimal.ratVal_mkCanon σa Ma sa hMa (by omega),
    Decimal.ratVal_mkCanon σb Mb sb hMb (by omega)] at h
  by_cases hZa : Ma = 0
  · subst hZa
    have hZb : Mb = 0 := by
      by_contra hc
      have hb0 : (if σb then (-1 : ℚ) else 1) * (Mb : ℚ) / 10 ^ sb ≠ 0 := by
        have hc' : ((Mb : ℚ)) ≠ 0 := Nat.cast_ne_zero.mpr hc
        cases σb <;> simp [hc']
      rw [← h] at hb0
      simp at hb0
    subst hZb
    unfold Decimal.eqOp
    rw [if_pos ⟨by rw [Decimal.isZero_mkCanon _ _ _ (by simpa using hMa)]; simp,
      by rw [Decimal.isZero_mkCanon _ _ _ (by simpa using hMb)]; simp⟩]
  · have hZb : Mb ≠ 0 := by
      intro hc
      subst hc
      have ha0 : (if σa then (-1 : ℚ) else 1) * (Ma : ℚ) / 10 ^ sa ≠ 0 := by
        have hc' : ((Ma : ℚ)) ≠ 0 := Nat.cast_ne_zero.mpr hZa
        cases σa <;> simp [hc']
      rw [h] at ha0
      simp at ha0
    have hMaQ : (0 : ℚ) < (Ma : ℚ) := by exact_mod_cast Nat.pos_of_ne_zero hZa
    have hMbQ : (0 : ℚ) < (Mb : ℚ) := by exact_mod_cast Nat.pos_of_ne_zero hZb
    have hpa : (0 : ℚ) < (Ma : ℚ) / 10 ^ sa :=
      div_pos hMaQ (pow_pos (by norm_num) sa)
    have hpb : (0 : ℚ) < (Mb : ℚ) / 10 ^ sb :=
      div_pos hMbQ (pow_pos (by norm_num) sb)
    have hsign : σa = σb := by
      cases σa <;> cases σb <;> simp at h ⊢ <;>
        first
          | linarith [h, hpa, hpb]
          | (rw [neg_div] at h; linarith [h, hpa, hpb])
    subst hsign
    have hcross : (Ma : ℚ) * 10 ^ sb = (Mb : ℚ) * 10 ^ sa := by
      have h10a : (10 : ℚ) ^ sa ≠ 0 := by positivity
      have h10b : (10 : ℚ) ^ sb ≠ 0 := by positivity
      cases σa <;> simp at h <;> field_simp at h <;> linarith [h]
    unfold Decimal.eqOp
    rw [if_neg (by
      rw [Decimal.isZero_mkCanon _ _ _ (by simpa using hMa),
        Decimal.isZero_mkCanon _ _ _ (by simpa using hMb)]
      simp [hZa])]
    rw [if_neg (by
      rw [Decimal.isNegative_mkCanon _ _ _ (by omega),
        Decimal.isNegative_mkCanon _ _ _ (by omega)]
      simp)]
    unfold Decimal.alignScale
    rw [Decimal.scale_mkCanon _ _ _ (by omega), Decimal.scale_mkCanon _ _ _ (by omega)]
    rw [Decimal.mantissaAsInt128_mkCanon _ _ _ hMa, Decimal.mantissaAsInt128_mkCanon _ _ _ hMb]
    have hwa : (⟨Ma % U64, Ma / U64⟩ : Int128).wf := by
      constructor <;> simp only [U32, U64] at * <;> omega
    have hwb : (⟨Mb % U64, Mb / U64⟩ : Int128).wf := by
      constructor <;> simp only [U32, U64] at * <;> omega
    have hta : (⟨Ma % U64, Ma / U64⟩ : Int128).toNat = Ma := by
      simp only [Int128.toNat, U32, U64] at *
      omega
    have htb : (⟨Mb % U64, Mb / U64⟩ : Int128).toNat = Mb := by
      simp only [Int128.toNat, U32, U64] at *
      omega
    by_cases hlt : sa < sb
    · rw [if_pos hlt]
      have hΔ : sb - sa ≤ 28 := by omega
      have hMeq : Ma * 10 ^ (sb - sa) = Mb := by
        have hq : (Ma : ℚ) * 10 ^ (sb - sa) = (Mb : ℚ) := by
          have hsplit : (10 : ℚ) ^ sb = 10 ^ (sb - sa) * 10 ^ sa := by
            rw [← pow_add]
            congr 1
            omega
          rw [hsplit] at hcross
          have h10a : (10 : ℚ) ^ sa ≠ 0 := by positivity
          have h10a' : (0 : ℚ) < 10 ^ sa := by positivity
          nlinarith [hcross, h10a']
        exact_mod_cast hq
      have hprod := Int128.mul_toNat_of_lt ⟨Ma % U64, Ma / U64⟩ (getPowerOf10 (sb - sa))
        hwa (getPowerOf10_wf _ hΔ)
        (by
          rw [hta, getPowerOf10_toNat _ hΔ, hMeq]
          calc Mb < U32 * U32 * U32 := hMb
            _ < U128 := by decide)
      rw [hta, getPowerOf10_toNat _ hΔ, hMeq] at hprod
      rw [Int128.eq_true_iff]
      exact Int128.toNat_inj _ _ (Int128.mul_wf _ _) hwb (by rw [hprod, htb])
    · by_cases hgt : sb < sa
      · rw [if_neg hlt, if_pos hgt]
        have hΔ : sa - sb ≤ 28 := by omega
        have hMeq : Mb * 10 ^ (sa - sb) = Ma := by
          have hq : (Mb : ℚ) * 10 ^ (sa - sb) = (Ma : ℚ) := by
            have hsplit : (10 : ℚ) ^ sa = 10 ^ (sa - sb) * 10 ^ sb := by
              rw [← pow_add]
              congr 1
              omega
            rw [hsplit] at hcross
            have h10b : (10 : ℚ) ^ sb ≠ 0 := by positivity
            have h10b' : (0 : ℚ) < 10 ^ sb := by positivity
            nlinarith [hcross, h10b']
          exact_mod_cast hq
        have hprod := Int128.mul_toNat_of_lt ⟨Mb % U64, Mb / U64⟩ (getPowerOf10 (sa - sb))
          hwb (getPowerOf10_wf _ hΔ)
          (by
            rw [htb, getPowerOf10_toNat _ hΔ, hMeq]
            calc Ma < U32 * U32 * U32 := hMa
              _ < U128 := by decide)
        rw [htb, getPowerOf10_toNat _ hΔ, hMeq] at hprod
        rw [Int128.eq_true_iff]
        exact (Int128.toNat_inj _ _ (Int128.mul_wf _ _) hwa (by rw [hprod, hta])).symm
      · rw [if_neg hlt, if_neg hgt]
        have hse : sa = sb := by omega
        subst hse
        have hMeq : Ma = Mb := by
          have hq : (Ma : ℚ) = (Mb : ℚ) :=
            mul_right_cancel₀ (by positivity) hcross
          exact_mod_cast hq
        rw [Int128.eq_true_iff]
        exact Int128.toNat_inj _ _ hwa hwb (by rw [hta, htb, hMeq])

/-! ## Digit characters and digit-string values -/
theorem isDigitCh_bounds {c : Char} (h : isDigitCh c = true) :
    48 ≤ c.toNat ∧ c.toNat ≤ 57 := by
  simp only [isDigitCh, Bool.and_eq_true, decide_eq_true_eq] at h
  obtain ⟨h1, h2⟩ := h
  rw [Char.le_def] at h1 h2
  exact ⟨h1, h2⟩

theorem chrDigit_facts : ∀ d < 10, (Char.ofNat (48 + d)).toNat = 48 + d ∧
    isDigitCh (Char.ofNat (48 + d)) = true ∧ digitOf (Char.ofNat (48 + d)) = d ∧
    ((Char.ofNat (48 + d) = '0') ↔ d = 0) ∧ Char.ofNat (48 + d) ≠ '.' := by decide

theorem digitOf_le {c : Char} (h : isDigitCh c = true) : digitOf c ≤ 9 := by
  have := isDigitCh_bounds h
  simp only [digitOf]
  omega

theorem digit_ne_dot {c : Char} (h : isDigitCh c = true) : c ≠ '.' := by
  intro he
  subst he
  simp [isDigitCh] at h

theorem digit_ne_minus {c : Char} (h : isDigitCh c = true) : ¬ (c = '-' ∨ c = '+') := by
  rintro (rfl | rfl) <;> simp [isDigitCh] at h

theorem zero_digit : digitOf '0' = 0 ∧ isDigitCh '0' = true := by decide

theorem digit_eq_zero_iff {c : Char} (h : isDigitCh c = true) : digitOf c = 0 ↔ c = '0' := by
  have hb := isDigitCh_bounds h
  constructor
  · intro hz
    simp only [digitOf] at hz
    have : c.toNat = 48 := by omega
    have hv : c = Char.ofNat 48 := by
      rw [← this]
      exact (Char.ofNat_toNat c).symm
    rw [hv]
  · intro he
    subst he
    decide

theorem digitsVal_go (a : Nat) (l : List Char) :
    l.foldl (fun a c => 10 * a + digitOf c) a = a * 10 ^ l.length + digitsVal l := by
  induction l generalizing a with
  | nil => simp [digitsVal]
  | cons c t ih =>
    simp only [List.foldl_cons, List.length_cons, digitsVal]
    rw [ih (10 * a + digitOf c), ih (10 * 0 + digitOf c)]
    ring

theorem digitsVal_nil : digitsVal [] = 0 := rfl

theorem digitsVal_cons (c : Char) (t : List Char) :
    digitsVal (c :: t) = digitOf c * 10 ^ t.length + digitsVal t := by
  have h : digitsVal (c :: t) =
      List.foldl (fun a c => 10 * a + digitOf c) (10 * 0 + digitOf c) t := rfl
  rw [h, digitsVal_go]
  ring

theorem digitsVal_append (l1 l2 : List Char) :
    digitsVal (l1 ++ l2) = digitsVal l1 * 10 ^ l2.length + digitsVal l2 := by
  have h : digitsVal (l1 ++ l2) =
      List.foldl (fun a c => 10 * a + digitOf c) (digitsVal l1) l2 := by
    simp [digitsVal, List.foldl_append]
  rw [h, digitsVal_go]

theorem digitsVal_singleton (c : Char) : digitsVal [c] = digitOf c := by
  simp [digitsVal]

theorem digitsVal_lt (l : List Char) (h : ∀ c ∈ l, isDigitCh c = true) :
    digitsVal l < 10 ^ l.length := by
  induction l with
  | nil => simp [digitsVal]
  | cons c t ih =>
    rw [digitsVal_cons]
    have h1 : digitOf c ≤ 9 := digitOf_le (h c (List.mem_cons_self c t))
    have h2 : digitsVal t < 10 ^ t.length := ih (fun x hx => h x (List.mem_cons_of_mem c hx))
    simp only [List.length_cons, pow_succ]
    calc digitOf c * 10 ^ t.length + digitsVal t
        ≤ 9 * 10 ^ t.length + digitsVal t := by
          exact Nat.add_le_add_right (Nat.mul_le_mul_right _ h1) _
      _ < 9 * 10 ^ t.length + 10 ^ t.length := by omega
      _ = 10 ^ t.length * 10 := by ring
      _ ≤ 10 ^ t.length * 10 := le_refl _

theorem digitsVal_zeros (l : List Char) (h : ∀ c ∈ l, c = '0') : digitsVal l = 0 := by
  induction l with
  | nil => rfl
  | cons c t ih =>
    rw [digitsVal_cons, h c (List.mem_cons_self c t)]
    rw [ih (fun x hx => h x (List.mem_cons_of_mem c hx))]
    have h0 : digitOf '0' = 0 := rfl
    rw [h0]
    simp

theorem digitsVal_eq_dropWhile (l : List Char) :
    digitsVal (l.dropWhile (· = '0')) = digitsVal l := by
  conv_rhs => rw [← List.takeWhile_append_dropWhile (p := (· = '0')) (l := l)]
  rw [digitsVal_append]
  rw [digitsVal_zeros (l.takeWhile (· = '0'))
    (fun c hc => by simpa using List.mem_takeWhile_imp hc)]
  simp

/-! ## Parse-loop machinery -/

theorem Int128.eq_zero_iff (m : Int128) : (m.eq ⟨0, 0⟩ = true) ↔ m.toNat = 0 := by
  simp only [Int128.eq, Int128.toNat, Bool.and_eq_true, decide_eq_true_eq, U64]
  omega

theorem Int128.accum_step (m : Int128) (dg : Nat) (hm : m.wf)
    (hb : m.toNat * 10 + dg < U128) (hdg : dg < U64) :
    (Int128.add (Int128.mul m ⟨10, 0⟩) ⟨dg, 0⟩).wf ∧
    (Int128.add (Int128.mul m ⟨10, 0⟩) ⟨dg, 0⟩).toNat = m.toNat * 10 + dg := by
  have h10 : (⟨10, 0⟩ : Int128).wf := by constructor <;> simp only [U64] <;> omega
  have hdgw : (⟨dg, 0⟩ : Int128).wf := by
    constructor <;> simp only [U64] at * <;> omega
  have ht10 : (⟨10, 0⟩ : Int128).toNat = 10 := by simp [Int128.toNat]
  have htdg : (⟨dg, 0⟩ : Int128).toNat = dg := by simp [Int128.toNat]
  have hmul := Int128.mul_toNat_of_lt m ⟨10, 0⟩ hm h10 (by rw [ht10]; omega)
  rw [ht10] at hmul
  have hadd := Int128.add_toNat (Int128.mul m ⟨10, 0⟩) ⟨dg, 0⟩ (Int128.mul_wf _ _) hdgw
  rw [hmul, htdg, Nat.mod_eq_of_lt hb] at hadd
  exact ⟨Int128.add_wf _ _, hadd⟩

theorem Int128.hi_le_of_toNat_lt (m : Int128) (hm : m.wf) (h : m.toNat < 10 ^ 28) :
    ¬ (4294967295 < m.hi) := by
  obtain ⟨h1, h2⟩ := hm
  simp only [Int128.toNat, U64] at *
  omega

/-- Skipping the decimal point: one loop iteration on `'.'`. -/
theorem Decimal.parseLoop_dot (decPos : Option Nat) (r : List Char) (i : Nat)
    (st : ParseSt) :
    Decimal.parseLoop decPos ('.' :: r) i st = Decimal.parseLoop decPos r (i + 1) st := by
  conv_lhs => rw [Decimal.parseLoop.eq_def]
  simp

/-- One loop iteration on a digit character below the significance cap,
at a position at or before the decimal point (or with no point present):
`decimalDigitsProcessed` is unchanged and significance counting skips a
zero digit while the mantissa is still zero. -/
theorem Decimal.parseLoop_digit_step_pre (decPos : Option Nat) (c : Char) (r : List Char)
    (i : Nat) (m : Int128) (g dd cs : Nat) (h0 : Bool)
    (hc : isDigitCh c = true) (hg : g < 28)
    (hp : ∀ p, decPos = some p → ¬ (p < i)) :
    Decimal.parseLoop decPos (c :: r) i ⟨m, g, dd, h0, cs⟩ =
      Decimal.parseLoop decPos r (i + 1)
        ⟨Int128.add (Int128.mul m ⟨10, 0⟩) ⟨digitOf c, 0⟩,
         if digitOf c ≠ 0 ∨ ¬ m.eq ⟨0, 0⟩ = true then g + 1 else g,
         dd, true, cs⟩ := by
  cases decPos with
  | none =>
    conv_lhs => rw [Decimal.parseLoop.eq_def]
    simp only []
    rw [if_neg (digit_ne_dot hc), if_neg (by simp [hc]), if_neg (by omega : ¬ 28 ≤ g)]
    simp only [Bool.false_eq_true, or_false, if_false]
  | some p =>
    conv_lhs => rw [Decimal.parseLoop.eq_def]
    simp only []
    rw [if_neg (digit_ne_dot hc), if_neg (by simp [hc]), if_neg (by omega : ¬ 28 ≤ g)]
    have hdec : decide (p < i) = false := by simpa using hp p rfl
    simp only [hdec, Bool.false_eq_true, or_false, if_false]

/-- One loop iteration on a digit character below the significance cap,
at a position strictly after the decimal point: the digit always counts
as significant and as a fractional digit. -/
theorem Decimal.parseLoop_digit_step_post (p : Nat) (c : Char) (r : List Char)
    (i : Nat) (m : Int128) (g dd cs : Nat) (h0 : Bool)
    (hc : isDigitCh c = true) (hg : g < 28) (hi : p < i) :
    Decimal.parseLoop (some p) (c :: r) i ⟨m, g, dd, h0, cs⟩ =
      Decimal.parseLoop (some p) r (i + 1)
        ⟨Int128.add (Int128.mul m ⟨10, 0⟩) ⟨digitOf c, 0⟩, g + 1, dd + 1, true, cs⟩ := by
  conv_lhs => rw [Decimal.parseLoop.eq_def]
  simp only []
  rw [if_neg (digit_ne_dot hc), if_neg (by simp [hc]), if_neg (by omega : ¬ 28 ≤ g)]
  have hdec : decide (p < i) = true := by simpa using hi
  simp only [hdec, or_true, if_true]

/-- One loop iteration on a digit character at the significance cap:
the loop corrects the scale and breaks. -/
theorem Decimal.parseLoop_break (decPos : Option Nat) (c : Char) (r : List Char)
    (i : Nat) (m : Int128) (dd cs : Nat) (h0 : Bool)
    (hc : isDigitCh c = true) :
    Decimal.parseLoop decPos (c :: r) i ⟨m, 28, dd, h0, cs⟩ =
      some ⟨m, 28, dd, true, if decPos.isSome then dd else cs⟩ := by
  conv_lhs => rw [Decimal.parseLoop.eq_def]
  simp only []
  rw [if_neg (digit_ne_dot hc)]
  rw [if_neg (by simp [hc])]
  rw [if_pos (le_refl 28)]

/-- Leading integer-part zeros are consumed without counting significant
digits: mantissa stays zero and the state is otherwise unchanged. -/
theorem Decimal.parseLoop_zeros (decPos : Option Nat) (z rest : List Char) (i : Nat)
    (dd cs : Nat) (h0 : Bool)
    (hz : ∀ c ∈ z, c = '0')
    (hp : ∀ p, decPos = some p → i + z.length ≤ p) :
    Decimal.parseLoop decPos (z ++ rest) i ⟨⟨0, 0⟩, 0, dd, h0, cs⟩ =
      Decimal.parseLoop decPos rest (i + z.length)
        ⟨⟨0, 0⟩, 0, dd, h0 || decide (z ≠ []), cs⟩ := by
  induction z generalizing i h0 with
  | nil => simp
  | cons c t ih =>
    have hc : c = '0' := hz c (List.mem_cons_self c t)
    subst hc
    rw [List.cons_append,
      Decimal.parseLoop_digit_step_pre decPos '0' (t ++ rest) i ⟨0, 0⟩ 0 dd cs h0
        (by decide) (by omega)
        (fun p hpp => by
          have := hp p hpp
          simp only [List.length_cons] at this
          omega)]
    rw [if_neg (by decide)]
    rw [show Int128.add (Int128.mul ⟨0, 0⟩ ⟨10, 0⟩) ⟨digitOf '0', 0⟩ = (⟨0, 0⟩ : Int128)
      from by decide]
    rw [ih (i + 1) true (fun x hx => hz x (List.mem_cons_of_mem '0' hx))
      (fun p hpp => by have := hp p hpp; simp only [List.length_cons] at this; omega)]
    have e1 : i + 1 + t.length = i + ('0' :: t).length := by
      simp only [List.length_cons]
      omega
    rw [e1]
    have e2 : (true || decide (t ≠ [])) = (h0 || decide (('0' :: t) ≠ [])) := by
      simp
    rw [e2]

/-- A run of digit characters before the decimal point while the mantissa
is already nonzero: every digit counts as significant, and the run either
completes below the 28-digit cap or breaks at it. -/
theorem Decimal.parseLoop_sigrun (decPos : Option Nat) (l rest : List Char) (i : Nat)
    (m : Int128) (g dd cs : Nat) (h0 : Bool)
    (hd : ∀ c ∈ l, isDigitCh c = true)
    (hp : ∀ p, decPos = some p → i + l.length ≤ p)
    (hm : m.wf) (hpos : 0 < m.toNat) (hval : m.toNat < 10 ^ g) (hg : g ≤ 28) :
    (g + l.length ≤ 28 →
      ∃ m' : Int128, m'.wf ∧ m'.toNat = m.toNat * 10 ^ l.length + digitsVal l ∧
        Decimal.parseLoop decPos (l ++ rest) i ⟨m, g, dd, h0, cs⟩ =
          Decimal.parseLoop decPos rest (i + l.length)
            ⟨m', g + l.length, dd, h0 || decide (l ≠ []), cs⟩) ∧
    (28 < g + l.length →
      ∃ m' : Int128, m'.wf ∧
        m'.toNat = m.toNat * 10 ^ (28 - g) + digitsVal (l.take (28 - g)) ∧
        Decimal.parseLoop decPos (l ++ rest) i ⟨m, g, dd, h0, cs⟩ =
          some ⟨m', 28, dd, true, if decPos.isSome then dd else cs⟩) := by
  induction l generalizing i m g h0 with
  | nil =>
    constructor
    · intro _
      refine ⟨m, hm, by simp [digitsVal_nil], by simp⟩
    · intro h
      simp only [List.length_nil] at h
      omega
  | cons c t ih =>
    have hc : isDigitCh c = true := hd c (List.mem_cons_self c t)
    by_cases hcap : g = 28
    · subst hcap
      constructor
      · intro h
        simp only [List.length_cons] at h
        omega
      · intro _
        refine ⟨m, hm, by simp [digitsVal_nil], ?_⟩
        rw [List.cons_append, Decimal.parseLoop_break decPos c (t ++ rest) i m dd cs h0 hc]
    · have hglt : g < 28 := by omega
      rw [List.cons_append,
        Decimal.parseLoop_digit_step_pre decPos c (t ++ rest) i m g dd cs h0 hc hglt
          (fun p hpp => by
            have := hp p hpp
            simp only [List.length_cons] at this
            omega)]
      have hne : ¬ (m.eq ⟨0, 0⟩ = true) := by
        rw [Int128.eq_zero_iff]
        omega
      rw [if_pos (Or.inr hne)]
      have hdg : digitOf c ≤ 9 := digitOf_le hc
      have hpow : (10 : Nat) ^ (g + 1) = 10 ^ g * 10 := pow_succ 10 g
      have hstep := Int128.accum_step m (digitOf c) hm
        (by
          have hle28 : (10 : Nat) ^ (g + 1) ≤ 10 ^ 28 :=
            Nat.pow_le_pow_right (by omega) (by omega)
          have hU : (10 : Nat) ^ 28 < U128 := by norm_num [U128]
          omega)
        (by simp only [U64]; omega)
      obtain ⟨hw', ht'⟩ := hstep
      have ih' := ih (i + 1) (Int128.add (Int128.mul m ⟨10, 0⟩) ⟨digitOf c, 0⟩) (g + 1) true
        (fun x hx => hd x (List.mem_cons_of_mem c hx))
        (fun p hpp => by have := hp p hpp; simp only [List.length_cons] at this; omega)
        hw' (by omega) (by omega) (by omega)
      constructor
      · intro hle
        simp only [List.length_cons] at hle
        obtain ⟨m', hw2, ht2, heq⟩ := ih'.1 (by omega)
        refine ⟨m', hw2, ?_, ?_⟩
        · rw [ht2, ht', digitsVal_cons]
          simp only [List.length_cons, pow_succ]
          ring
        · have e1 : i + (c :: t).length = i + 1 + t.length := by
            simp only [List.length_cons]
            omega
          have e2 : g + (c :: t).length = g + 1 + t.length := by
            simp only [List.length_cons]
            omega
          rw [e1, e2]
          have e3 : (h0 || decide ((c :: t) ≠ [])) = (true || decide (t ≠ [])) := by
            simp
          rw [e3, heq]
      · intro hgt
        simp only [List.length_cons] at hgt
        obtain ⟨m', hw2, ht2, heq⟩ := ih'.2 (by omega)
        refine ⟨m', hw2, ?_, by rw [heq]⟩
        rw [ht2, ht']
        have h28g : 28 - g = (28 - (g + 1)) + 1 := by omega
        rw [h28g, List.take_succ_cons, digitsVal_cons]
        have hlen : (t.take (28 - (g + 1))).length = 28 - (g + 1) := by
          rw [List.length_take]
          omega
        rw [hlen, pow_succ]
        ring

/-- A run of digit characters after the decimal point: every digit counts
as significant and as a fractional digit; on reaching the cap the scale is
corrected to the fractional digits actually consumed. -/
theorem Decimal.parseLoop_afterrun (p : Nat) (l rest : List Char) (i : Nat)
    (m : Int128) (g dd cs : Nat) (h0 : Bool)
    (hd : ∀ c ∈ l, isDigitCh c = true)
    (hi : p < i)
    (hm : m.wf) (hval : m.toNat < 10 ^ g) (hg : g ≤ 28) :
    (g + l.length ≤ 28 →
      ∃ m' : Int128, m'.wf ∧ m'.toNat = m.toNat * 10 ^ l.length + digitsVal l ∧
        Decimal.parseLoop (some p) (l ++ rest) i ⟨m, g, dd, h0, cs⟩ =
          Decimal.parseLoop (some p) rest (i + l.length)
            ⟨m', g + l.length, dd + l.length, h0 || decide (l ≠ []), cs⟩) ∧
    (28 < g + l.length →
      ∃ m' : Int128, m'.wf ∧
        m'.toNat = m.toNat * 10 ^ (28 - g) + digitsVal (l.take (28 - g)) ∧
        Decimal.parseLoop (some p) (l ++ rest) i ⟨m, g, dd, h0, cs⟩ =
          some ⟨m', 28, dd + (28 - g), true, dd + (28 - g)⟩) := by
  induction l generalizing i m g dd h0 with
  | nil =>
    constructor
    · intro _
      refine ⟨m, hm, by simp [digitsVal_nil], by simp⟩
    · intro h
      simp only [List.length_nil] at h
      omega
  | cons c t ih =>
    have hc : isDigitCh c = true := hd c (List.mem_cons_self c t)
    by_cases hcap : g = 28
    · subst hcap
      constructor
      · intro h
        simp only [List.length_cons] at h
        omega
      · intro _
        refine ⟨m, hm, by simp [digitsVal_nil], ?_⟩
        rw [List.cons_append, Decimal.parseLoop_break (some p) c (t ++ rest) i m dd cs h0 hc]
        simp
    · have hglt : g < 28 := by omega
      rw [List.cons_append,
        Decimal.parseLoop_digit_step_post p c (t ++ rest) i m g dd cs h0 hc hglt hi]
      have hdg : digitOf c ≤ 9 := digitOf_le hc
      have hpow : (10 : Nat) ^ (g + 1) = 10 ^ g * 10 := pow_succ 10 g
      have hstep := Int128.accum_step m (digitOf c) hm
        (by
          have hle28 : (10 : Nat) ^ (g + 1) ≤ 10 ^ 28 :=
            Nat.pow_le_pow_right (by omega) (by omega)
          have hU : (10 : Nat) ^ 28 < U128 := by norm_num [U128]
          omega)
        (by simp only [U64]; omega)
      obtain ⟨hw', ht'⟩ := hstep
      have ih' := ih (i + 1) (Int128.add (Int128.mul m ⟨10, 0⟩) ⟨digitOf c, 0⟩) (g + 1)
        (dd + 1) true
        (fun x hx => hd x (List.mem_cons_of_mem c hx))
        (by omega)
        hw' (by omega) (by omega)
      constructor
      · intro hle
        simp only [List.length_cons] at hle
        obtain ⟨m', hw2, ht2, heq⟩ := ih'.1 (by omega)
        refine ⟨m', hw2, ?_, ?_⟩
        · rw [ht2, ht', digitsVal_cons]
          simp only [List.length_cons, pow_succ]
          ring
        · have e1 : i + (c :: t).length = i + 1 + t.length := by
            simp only [List.length_cons]
            omega
          have e2 : g + (c :: t).length = g + 1 + t.length := by
            simp only [List.length_cons]
            omega
          have e4 : dd + (c :: t).length = dd + 1 + t.length := by
            simp only [List.length_cons]
            omega
          rw [e1, e2, e4]
          have e3 : (h0 || decide ((c :: t) ≠ [])) = (true || decide (t ≠ [])) := by
            simp
          rw [e3, heq]
      · intro hgt
        simp only [List.length_cons] at hgt
        obtain ⟨m', hw2, ht2, heq⟩ := ih'.2 (by omega)
        have e5 : dd + 1 + (28 - (g + 1)) = dd + (28 - g) := by omega
        refine ⟨m', hw2, ?_, ?_⟩
        · rw [ht2, ht']
          have h28g : 28 - g = (28 - (g + 1)) + 1 := by omega
          rw [h28g, List.take_succ_cons, digitsVal_cons]
          have hlen : (t.take (28 - (g + 1))).length = 28 - (g + 1) := by
            rw [List.length_take]
            omega
          rw [hlen, pow_succ]
          ring
        · rw [heq, e5]

/-- The decimal-point scan at a point-free suffix. -/
theorem Decimal.findPoint_digits (l : List Char) (i : Nat)
    (hd : ∀ c ∈ l, c ≠ '.') : Decimal.findPoint l i = some none := by
  induction l generalizing i with
  | nil => rfl
  | cons c t ih =>
    rw [Decimal.findPoint]
    rw [if_neg (hd c (List.mem_cons_self c t))]
    exact ih (i + 1) (fun x hx => hd x (List.mem_cons_of_mem c hx))

/-- The decimal-point scan on a literal with exactly one point reports the
point's index. -/
theorem Decimal.findPoint_split (ds1 ds2 : List Char) (i : Nat)
    (h1 : ∀ c ∈ ds1, c ≠ '.') (h2 : ∀ c ∈ ds2, c ≠ '.') :
    Decimal.findPoint (ds1 ++ '.' :: ds2) i = some (some (i + ds1.length)) := by
  induction ds1 generalizing i with
  | nil =>
    rw [List.nil_append, Decimal.findPoint]
    rw [if_pos rfl]
    rw [Decimal.findPoint_digits ds2 (i + 1) h2]
    simp
  | cons c t ih =>
    rw [List.cons_append, Decimal.findPoint]
    rw [if_neg (h1 c (List.mem_cons_self c t))]
    rw [ih (i + 1) (fun x hx => h1 x (List.mem_cons_of_mem c hx))]
    simp only [List.length_cons]
    congr 2
    omega

/-- The final state assembly of `Decimal::tryParse` builds the canonical
state for the accumulated mantissa and scale: the overflow trims are dead
(the mantissa is below `10^28`) and the flags word is assembled from
disjoint bit fields. -/
theorem Decimal.state_eq_mkCanon (σbits : Nat) (neg : Bool) (m : Int128) (M s : Nat)
    (hσ : σbits = if neg then 2147483648 else 0)
    (hm : m.wf) (hM : m.toNat = M) (hs : s ≤ 28) :
    ({ flags := σbits ||| (s <<< 16), m0 := m.lo % U32,
       m1 := m.lo / U32 % U32, m2 := m.hi % U32 } : Decimal) = Decimal.mkCanon neg M s := by
  have hor := flagsBuild s (by omega)
  obtain ⟨h1, h2⟩ := hm
  subst hM
  subst hσ
  simp only [Decimal.mkCanon, Decimal.mk.injEq, Int128.toNat]
  refine ⟨?_, ?_, ?_, ?_⟩
  · cases neg
    · simpa using hor.2
    · simpa using hor.1
  · simp only [U32, U64] at *
    omega
  · simp only [U32, U64] at *
    omega
  · simp only [U32, U64] at *
    omega

/-- `internal::normalize` after parsing: the normalized state is valid,
normalized, and denotes `±M/10^s`. -/
theorem Decimal.normalize_mkCanon_spec (σn : Bool) (M s : Nat)
    (hM : M < 10 ^ 28) (hs : s ≤ 28) :
    (Decimal.mkCanon σn M s).normalize.Valid ∧
    (Decimal.mkCanon σn M s).normalize.IsNormalized ∧
    (Decimal.mkCanon σn M s).normalize.ratVal =
      (if σn then (-1 : ℚ) else 1) * (M : ℚ) / 10 ^ s := by
  have hM' : M < U32 * U32 * U32 := lt_trans hM (by norm_num [U32])
  obtain ⟨k, hk, hdvd, heq, hterm⟩ := Decimal.normalize_mkCanon σn M s hM' (by omega)
  rw [heq]
  have hMk : M / 10 ^ k < U32 * U32 * U32 := lt_of_le_of_lt (Nat.div_le_self _ _) hM'
  refine ⟨Decimal.valid_mkCanon σn (M / 10 ^ k) (s - k) (by omega), ?_, ?_⟩
  · unfold Decimal.IsNormalized
    rw [Decimal.scale_mkCanon σn (M / 10 ^ k) (s - k) (by omega),
      Decimal.mantNat_mkCanon σn (M / 10 ^ k) (s - k) hMk]
    exact hterm
  · rw [Decimal.ratVal_strip σn M s k hM' hk (by omega) hdvd,
      Decimal.ratVal_mkCanon σn M s hM' (by omega)]

theorem dropWhile_head_not {α} (p : α → Bool) :
    ∀ (l : List α) (c : α) (t : List α), l.dropWhile p = c :: t → ¬ p c = true := by
  intro l
  induction l with
  | nil => intro c t h; simp at h
  | cons a l' ih =>
    intro c t h
    rw [List.dropWhile_cons] at h
    by_cases hp : p a = true
    · rw [if_pos hp] at h
      exact ih c t h
    · rw [if_neg hp] at h
      injection h with h1 h2
      subst h1
      exact hp

/-- Evaluation of `truncLitVal` when fewer than 28 significant integer
digits are present. -/
theorem truncLitVal_small (neg : Bool) (ds1 ds2 : List Char)
    (h : (ds1.dropWhile (· = '0')).length < 28) :
    truncLitVal neg ds1 ds2 = (if neg then -1 else 1) *
      ((digitsVal (ds1 ++ ds2.take (min ds2.length (28 - (ds1.dropWhile (· = '0')).length))) : ℚ) /
        10 ^ (min ds2.length (28 - (ds1.dropWhile (· = '0')).length))) := by
  unfold truncLitVal
  rw [if_neg (by omega)]

/-- Evaluation of `truncLitVal` when at least 28 significant integer
digits are present. -/
theorem truncLitVal_big (neg : Bool) (ds1 ds2 : List Char)
    (h : 28 ≤ (ds1.dropWhile (· = '0')).length) :
    truncLitVal neg ds1 ds2 = (if neg then -1 else 1) *
      (digitsVal ((ds1.dropWhile (· = '0')).take 28) : ℚ) := by
  unfold truncLitVal
  rw [if_pos h]

/-- Empty-input equation of the digit loop. -/
theorem Decimal.parseLoop_nil (decPos : Option Nat) (i : Nat) (st : ParseSt) :
    Decimal.parseLoop decPos [] i st = some st := rfl

/-- The digit-accumulation loop of `tryParse` on a full literal body
`ds1 [. ds2]`: it always succeeds with `hasDigits` set, and the final
mantissa/scale pair denotes the literal truncated to 28 counted digits. -/
theorem Decimal.parseLoop_literal (ds1 ds2 : List Char) (pos : Nat)
    (h1 : ∀ c ∈ ds1, isDigitCh c = true) (h2 : ∀ c ∈ ds2, isDigitCh c = true)
    (hne : ds1 ≠ []) :
    ∃ (mf : Int128) (gf df sf : Nat),
      Decimal.parseLoop (if ds2 = [] then none else some (pos + ds1.length))
          (ds1 ++ (if ds2 = [] then [] else '.' :: ds2)) pos
          ⟨⟨0, 0⟩, 0, 0, false,
            if ds2 = [] then 0
            else (if 28 < ds2.length % 256 then 28 else ds2.length % 256)⟩ =
        some ⟨mf, gf, df, true, sf⟩ ∧
      mf.wf ∧ mf.toNat < 10 ^ 28 ∧ sf ≤ 28 ∧
      (mf.toNat : ℚ) / 10 ^ sf = truncLitVal false ds1 ds2 := by
  have hsplit : ds1.takeWhile (· = '0') ++ ds1.dropWhile (· = '0') = ds1 :=
    List.takeWhile_append_dropWhile (· = '0') ds1
  have hz : ∀ c ∈ ds1.takeWhile (· = '0'), c = '0' := fun c hc => by
    have := List.mem_takeWhile_imp hc
    simpa using this
  have hc1mem : ∀ c ∈ ds1.dropWhile (· = '0'), isDigitCh c = true := fun c hc =>
    h1 c ((List.dropWhile_sublist (· = '0')).subset hc)
  have hzlen : (ds1.takeWhile (· = '0')).length + (ds1.dropWhile (· = '0')).length =
      ds1.length := by
    rw [← List.length_append, hsplit]
  have hdvz : digitsVal (ds1.takeWhile (· = '0')) = 0 :=
    digitsVal_zeros _ hz
  have hdv1 : digitsVal ds1 = digitsVal (ds1.dropWhile (· = '0')) :=
    (digitsVal_eq_dropWhile ds1).symm
  have hw00 : (⟨0, 0⟩ : Int128).wf := by constructor <;> norm_num [U64]
  have ht00 : (⟨0, 0⟩ : Int128).toNat = 0 := by norm_num [Int128.toNat]
  by_cases hds2 : ds2 = []
  · subst hds2
    rw [if_pos rfl, if_pos rfl, if_pos rfl, List.append_nil]
    rcases hdrop : ds1.dropWhile (· = '0') with _ | ⟨ch, c1t⟩
    · have hzds1 : ds1.takeWhile (· = '0') = ds1 := by
        rw [hdrop, List.append_nil] at hsplit
        exact hsplit
      have hzall : ∀ c ∈ ds1, c = '0' := by
        rw [← hzds1]
        exact hz
      have hrun := Decimal.parseLoop_zeros none ds1 [] pos 0 0 false hzall
        (fun p h => by cases h)
      rw [List.append_nil] at hrun
      rw [hrun, Decimal.parseLoop_nil]
      refine ⟨⟨0, 0⟩, 0, 0, 0, ?_, hw00, by norm_num [Int128.toNat], by omega, ?_⟩
      · simp [hne]
      · rw [ht00]
        unfold truncLitVal
        rw [hdrop]
        simp only [List.length_nil]
        rw [if_neg (by omega)]
        simp only [List.take_nil, List.append_nil, if_false]
        rw [hdv1, hdrop]
        norm_num [digitsVal_nil]
    · have hch : isDigitCh ch = true := hc1mem ch (by rw [hdrop]; exact List.mem_cons_self _ _)
      have hch0 : ch ≠ '0' := by
        have := dropWhile_head_not (· = '0') ds1 ch c1t hdrop
        simpa using this
      have hdgne : digitOf ch ≠ 0 := by
        rw [Ne, digit_eq_zero_iff hch]
        exact hch0
      have hdg9 : digitOf ch ≤ 9 := digitOf_le hch
      have hc1tmem : ∀ c ∈ c1t, isDigitCh c = true := fun x hx =>
        hc1mem x (by rw [hdrop]; exact List.mem_cons_of_mem ch hx)
      have hzrun := Decimal.parseLoop_zeros none (ds1.takeWhile (· = '0'))
        (ds1.dropWhile (· = '0')) pos 0 0 false hz (fun p h => by cases h)
      rw [hsplit, hdrop] at hzrun
      rw [hzrun]
      rw [Decimal.parseLoop_digit_step_pre none ch c1t
        (pos + (ds1.takeWhile (· = '0')).length) ⟨0, 0⟩ 0 0 0
        (false || decide (ds1.takeWhile (· = '0') ≠ [])) hch (by omega)
        (fun p h => by cases h)]
      rw [if_pos (Or.inl hdgne)]
      obtain ⟨hw1, ht1⟩ := Int128.accum_step ⟨0, 0⟩ (digitOf ch) hw00
        (by rw [ht00]; norm_num [U128]; omega)
        (by norm_num [U64]; omega)
      rw [ht00] at ht1
      have hsig := Decimal.parseLoop_sigrun none c1t []
        (pos + (ds1.takeWhile (· = '0')).length + 1)
        (Int128.add (Int128.mul ⟨0, 0⟩ ⟨10, 0⟩) ⟨digitOf ch, 0⟩) 1 0 0 true
        hc1tmem (fun p h => by cases h)
        hw1 (by omega) (by rw [ht1]; omega) (by omega)
      by_cases hlen : 1 + c1t.length ≤ 28
      · obtain ⟨m', hw2, ht2, heq⟩ := hsig.1 hlen
        rw [List.append_nil] at heq
        rw [heq, Decimal.parseLoop_nil]
        refine ⟨m', 1 + c1t.length, 0, 0, by simp, hw2, ?_, by omega, ?_⟩
        · rw [ht2, ht1]
          rw [show (0 * 10 + digitOf ch) = digitOf ch from by omega]
          have hlt : digitsVal (ch :: c1t) < 10 ^ (c1t.length + 1) :=
            digitsVal_lt _ (by rw [← hdrop]; exact hc1mem)
          rw [digitsVal_cons] at hlt
          have hple : (10 : Nat) ^ (c1t.length + 1) ≤ 10 ^ 28 :=
            Nat.pow_le_pow_right (by omega) (by omega)
          omega
        · rw [ht2, ht1]
          unfold truncLitVal
          rw [hdrop]
          simp only [List.length_cons]
          by_cases h28 : 28 ≤ c1t.length + 1
          · rw [if_pos h28]
            have hc1len : c1t.length + 1 = 28 := by omega
            rw [List.take_of_length_le (by simp only [List.length_cons]; omega)]
            rw [digitsVal_cons]
            push_cast
            ring_nf
          · rw [if_neg h28]
            simp only [List.length_nil, List.take_nil, List.append_nil]
            have hk : min 0 (28 - (c1t.length + 1)) = 0 := by omega
            rw [hk]
            rw [hdv1, hdrop, digitsVal_cons]
            push_cast
            ring_nf
      · obtain ⟨m', hw2, ht2, heq⟩ := hsig.2 (by omega)
        rw [List.append_nil] at heq
        rw [heq]
        refine ⟨m', 28, 0, 0, by simp, hw2, ?_, by omega, ?_⟩
        · rw [ht2, ht1]
          have hlt : digitsVal (c1t.take 27) < 10 ^ 27 := by
            have hx := digitsVal_lt (c1t.take 27)
              (fun x hx => hc1tmem x (List.mem_of_mem_take hx))
            have hlen27 : (c1t.take 27).length ≤ 27 := by
              rw [List.length_take]
              omega
            calc digitsVal (c1t.take 27) < 10 ^ (c1t.take 27).length := hx
              _ ≤ 10 ^ 27 := Nat.pow_le_pow_right (by omega) hlen27
          rw [show (0 * 10 + digitOf ch) = digitOf ch from by omega]
          have hpow : (10 : Nat) ^ (28 - 1) = 10 ^ 27 := by norm_num
          rw [hpow]
          calc digitOf ch * 10 ^ 27 + digitsVal (c1t.take 27)
              ≤ 9 * 10 ^ 27 + digitsVal (c1t.take 27) :=
                Nat.add_le_add_right (Nat.mul_le_mul_right _ hdg9) _
            _ < 9 * 10 ^ 27 + 10 ^ 27 := by omega
            _ ≤ 10 ^ 28 := by norm_num
        · rw [ht2, ht1]
          unfold truncLitVal
          rw [hdrop]
          simp only [List.length_cons]
          rw [if_pos (by omega : 28 ≤ c1t.length + 1)]
          have h28 : (28 : Nat) = 27 + 1 := by norm_num
          rw [h28, List.take_succ_cons, digitsVal_cons]
          have hlen27 : (c1t.take 27).length = 27 := by
            rw [List.length_take]
            omega
          rw [hlen27]
          have hpow : (10 : Nat) ^ (28 - 1) = 10 ^ 27 := by norm_num
          rw [hpow]
          push_cast
          ring_nf
  · rw [if_neg hds2, if_neg hds2, if_neg hds2]
    have hzrun := Decimal.parseLoop_zeros (some (pos + ds1.length))
      (ds1.takeWhile (· = '0')) (ds1.dropWhile (· = '0') ++ '.' :: ds2) pos 0
      (if 28 < ds2.length % 256 then 28 else ds2.length % 256) false hz
      (fun q hq => by
        injection hq with hq'
        subst hq'
        omega)
    rw [← List.append_assoc, hsplit] at hzrun
    rcases hdrop : ds1.dropWhile (· = '0') with _ | ⟨ch, c1t⟩
    · have hzds1 : ds1.takeWhile (· = '0') = ds1 := by
        rw [hdrop, List.append_nil] at hsplit
        exact hsplit
      rw [hdrop, List.nil_append, hzds1] at hzrun
      rw [hzrun, Decimal.parseLoop_dot]
      have hafter := Decimal.parseLoop_afterrun (pos + ds1.length) ds2 []
        (pos + ds1.length + 1) ⟨0, 0⟩ 0 0
        (if 28 < ds2.length % 256 then 28 else ds2.length % 256)
        (false || decide (ds1 ≠ []))
        h2 (by omega) hw00 (by rw [ht00]; norm_num) (by omega)
      by_cases hlen2 : ds2.length ≤ 28
      · have hcseq : (if 28 < ds2.length % 256 then 28 else ds2.length % 256) =
            ds2.length := by
          rw [Nat.mod_eq_of_lt (by omega)]
          rw [if_neg (by omega)]
        obtain ⟨m', hw2, ht2, heq⟩ := hafter.1 (by omega)
        rw [List.append_nil] at heq
        rw [heq, Decimal.parseLoop_nil]
        rw [ht00] at ht2
        refine ⟨m', 0 + ds2.length, 0 + ds2.length,
          if 28 < ds2.length % 256 then 28 else ds2.length % 256, by simp [hds2], hw2,
          ?_, by omega, ?_⟩
        · have hlt : digitsVal ds2 < 10 ^ ds2.length := digitsVal_lt ds2 h2
          have hple : (10 : Nat) ^ ds2.length ≤ 10 ^ 28 :=
            Nat.pow_le_pow_right (by omega) hlen2
          omega
        · rw [ht2, hcseq]
          unfold truncLitVal
          rw [hdrop]
          simp only [List.length_nil]
          rw [if_neg (by omega)]
          have hk : min ds2.length (28 - 0) = ds2.length := by omega
          rw [hk, List.take_length]
          rw [digitsVal_append, hdv1, hdrop, digitsVal_nil]
          push_cast
          ring_nf
      · obtain ⟨m', hw2, ht2, heq⟩ := hafter.2 (by omega)
        rw [List.append_nil] at heq
        rw [heq]
        rw [ht00] at ht2
        refine ⟨m', 28, 0 + (28 - 0), 0 + (28 - 0), rfl, hw2, ?_, by omega, ?_⟩
        · have hlt : digitsVal (ds2.take (28 - 0)) < 10 ^ (ds2.take (28 - 0)).length :=
            digitsVal_lt _ (fun x hx => h2 x (List.mem_of_mem_take hx))
          have hlen28 : (ds2.take (28 - 0)).length ≤ 28 := by
            rw [List.length_take]
            omega
          have hple : (10 : Nat) ^ (ds2.take (28 - 0)).length ≤ 10 ^ 28 :=
            Nat.pow_le_pow_right (by omega) hlen28
          omega
        · rw [ht2]
          unfold truncLitVal
          rw [hdrop]
          simp only [List.length_nil]
          rw [if_neg (by omega)]
          have hk : min ds2.length (28 - 0) = 28 - 0 := by omega
          rw [hk]
          rw [digitsVal_append, hdv1, hdrop, digitsVal_nil]
          push_cast
          ring_nf
    · have hch : isDigitCh ch = true := hc1mem ch (by rw [hdrop]; exact List.mem_cons_self _ _)
      have hch0 : ch ≠ '0' := by
        have := dropWhile_head_not (· = '0') ds1 ch c1t hdrop
        simpa using this
      have hdgne : digitOf ch ≠ 0 := by
        rw [Ne, digit_eq_zero_iff hch]
        exact hch0
      have hdg9 : digitOf ch ≤ 9 := digitOf_le hch
      have hc1tmem : ∀ c ∈ c1t, isDigitCh c = true := fun x hx =>
        hc1mem x (by rw [hdrop]; exact List.mem_cons_of_mem ch hx)
      have hdlen : (ds1.dropWhile (· = '0')).length = c1t.length + 1 := by
        rw [hdrop]
        simp
      rw [hdrop, List.cons_append] at hzrun
      rw [hzrun]
      rw [Decimal.parseLoop_digit_step_pre (some (pos + ds1.length)) ch (c1t ++ '.' :: ds2)
        (pos + (ds1.takeWhile (· = '0')).length) ⟨0, 0⟩ 0 0
        (if 28 < ds2.length % 256 then 28 else ds2.length % 256)
        (false || decide (ds1.takeWhile (· = '0') ≠ [])) hch (by omega)
        (fun q hq => by
          injection hq with hq'
          subst hq'
          omega)]
      rw [if_pos (Or.inl hdgne)]
      obtain ⟨hw1, ht1⟩ := Int128.accum_step ⟨0, 0⟩ (digitOf ch) hw00
        (by rw [ht00]; norm_num [U128]; omega)
        (by norm_num [U64]; omega)
      rw [ht00] at ht1
      have hsig := Decimal.parseLoop_sigrun (some (pos + ds1.length)) c1t ('.' :: ds2)
        (pos + (ds1.takeWhile (· = '0')).length + 1)
        (Int128.add (Int128.mul ⟨0, 0⟩ ⟨10, 0⟩) ⟨digitOf ch, 0⟩) 1 0
        (if 28 < ds2.length % 256 then 28 else ds2.length % 256) true
        hc1tmem
        (fun q hq => by
          injection hq with hq'
          subst hq'
          omega)
        hw1 (by omega) (by rw [ht1]; omega) (by omega)
      by_cases hlen : 1 + c1t.length ≤ 28
      · obtain ⟨mc1, hwc1, htc1, heq⟩ := hsig.1 hlen
        rw [heq, Decimal.parseLoop_dot]
        have hI : pos + (ds1.takeWhile (· = '0')).length + 1 + c1t.length + 1 =
            pos + ds1.length + 1 := by omega
        rw [hI]
        have hvc1 : mc1.toNat = digitsVal (ch :: c1t) := by
          rw [htc1, ht1, digitsVal_cons]
          ring
        have hltc1 : digitsVal (ch :: c1t) < 10 ^ (c1t.length + 1) :=
          digitsVal_lt _ (by rw [← hdrop]; exact hc1mem)
        have hafter := Decimal.parseLoop_afterrun (pos + ds1.length) ds2 []
          (pos + ds1.length + 1) mc1 (1 + c1t.length) 0
          (if 28 < ds2.length % 256 then 28 else ds2.length % 256)
          (true || decide (c1t ≠ []))
          h2 (by omega) hwc1
          (by rw [hvc1]; rw [show 1 + c1t.length = c1t.length + 1 from by omega]; exact hltc1)
          (by omega)
        by_cases hlen3 : (1 + c1t.length) + ds2.length ≤ 28
        · have hcseq : (if 28 < ds2.length % 256 then 28 else ds2.length % 256) =
              ds2.length := by
            rw [Nat.mod_eq_of_lt (by omega)]
            rw [if_neg (by omega)]
          obtain ⟨m', hw2, ht2, heq2⟩ := hafter.1 (by omega)
          rw [List.append_nil] at heq2
          rw [heq2, Decimal.parseLoop_nil]
          refine ⟨m', 1 + c1t.length + ds2.length, 0 + ds2.length,
            if 28 < ds2.length % 256 then 28 else ds2.length % 256, by simp [hds2], hw2,
            ?_, by omega, ?_⟩
          · rw [ht2, hvc1]
            have hlt2 : digitsVal ds2 < 10 ^ ds2.length := digitsVal_lt ds2 h2
            have hcomb : digitsVal (ch :: c1t) * 10 ^ ds2.length + digitsVal ds2 =
                digitsVal ((ch :: c1t) ++ ds2) := (digitsVal_append _ _).symm
            rw [hcomb]
            have hltall : digitsVal ((ch :: c1t) ++ ds2) <
                10 ^ ((ch :: c1t) ++ ds2).length :=
              digitsVal_lt _ (by
                intro x hx
                rcases List.mem_append.mp hx with hx | hx
                · exact hc1mem x (by rw [hdrop]; exact hx)
                · exact h2 x hx)
            have hlenall : ((ch :: c1t) ++ ds2).length ≤ 28 := by
              simp only [List.length_append, List.length_cons]
              omega
            calc digitsVal ((ch :: c1t) ++ ds2) < 10 ^ ((ch :: c1t) ++ ds2).length := hltall
              _ ≤ 10 ^ 28 := Nat.pow_le_pow_right (by omega) hlenall
          · rw [ht2, hvc1, hcseq]
            have hds2len : 0 < ds2.length := List.length_pos.mpr hds2
            rw [truncLitVal_small false ds1 ds2 (by rw [hdlen]; omega)]
            rw [hdlen]
            have hk : min ds2.length (28 - (c1t.length + 1)) = ds2.length := by omega
            rw [hk, List.take_length]
            rw [digitsVal_append, hdv1, hdrop]
            simp only [Bool.false_eq_true, if_false, one_mul]
        · obtain ⟨m', hw2, ht2, heq2⟩ := hafter.2 (by omega)
          rw [List.append_nil] at heq2
          rw [heq2]
          refine ⟨m', 28, 0 + (28 - (1 + c1t.length)), 0 + (28 - (1 + c1t.length)),
            rfl, hw2, ?_, by omega, ?_⟩
          · rw [ht2, hvc1]
            have htk : (ds2.take (28 - (1 + c1t.length))).length = 28 - (1 + c1t.length) := by
              rw [List.length_take]
              omega
            have hcomb : digitsVal (ch :: c1t) * 10 ^ (28 - (1 + c1t.length)) +
                digitsVal (ds2.take (28 - (1 + c1t.length))) =
                digitsVal ((ch :: c1t) ++ ds2.take (28 - (1 + c1t.length))) := by
              rw [digitsVal_append, htk]
            rw [hcomb]
            have hltall := digitsVal_lt ((ch :: c1t) ++ ds2.take (28 - (1 + c1t.length)))
              (by
                intro x hx
                rcases List.mem_append.mp hx with hx | hx
                · exact hc1mem x (by rw [hdrop]; exact hx)
                · exact h2 x (List.mem_of_mem_take hx))
            have hlenall : ((ch :: c1t) ++ ds2.take (28 - (1 + c1t.length))).length = 28 := by
              simp only [List.length_append, List.length_cons, htk]
              omega
            rw [hlenall] at hltall
            exact hltall
          · rw [ht2, hvc1]
            by_cases h28 : 28 ≤ c1t.length + 1
            · have hc1len : c1t.length + 1 = 28 := by omega
              rw [truncLitVal_big false ds1 ds2 (by rw [hdlen]; omega)]
              rw [hdrop]
              rw [show List.take 28 (ch :: c1t) = ch :: c1t from
                List.take_of_length_le (by simp only [List.length_cons]; omega)]
              have hK0 : 28 - (1 + c1t.length) = 0 := by omega
              rw [hK0]
              simp only [List.take_zero, digitsVal_nil, pow_zero, Bool.false_eq_true,
                if_false, one_mul]
              push_cast
              ring_nf
            · rw [truncLitVal_small false ds1 ds2 (by rw [hdlen]; omega)]
              rw [hdlen]
              have hk : min ds2.length (28 - (c1t.length + 1)) = 28 - (1 + c1t.length) := by
                omega
              rw [hk]
              rw [digitsVal_append, hdv1, hdrop]
              have htk : (ds2.take (28 - (1 + c1t.length))).length =
                  28 - (1 + c1t.length) := by
                rw [List.length_take]
                omega
              rw [htk]
              simp only [Bool.false_eq_true, if_false, one_mul]
              push_cast
              ring_nf
      · obtain ⟨m', hw2, ht2, heq⟩ := hsig.2 (by omega)
        rw [heq]
        refine ⟨m', 28, 0, if (some (pos + ds1.length)).isSome then 0
          else (if 28 < ds2.length % 256 then 28 else ds2.length % 256), rfl, hw2, ?_, ?_, ?_⟩
        · rw [ht2, ht1]
          rw [show (0 * 10 + digitOf ch) = digitOf ch from by omega]
          have hlt : digitsVal (c1t.take 27) < 10 ^ 27 := by
            have hx := digitsVal_lt (c1t.take 27)
              (fun x hx => hc1tmem x (List.mem_of_mem_take hx))
            have hlen27 : (c1t.take 27).length ≤ 27 := by
              rw [List.length_take]
              omega
            calc digitsVal (c1t.take 27) < 10 ^ (c1t.take 27).length := hx
              _ ≤ 10 ^ 27 := Nat.pow_le_pow_right (by omega) hlen27
          have hpow : (10 : Nat) ^ (28 - 1) = 10 ^ 27 := by norm_num
          rw [hpow]
          calc digitOf ch * 10 ^ 27 + digitsVal (c1t.take 27)
              ≤ 9 * 10 ^ 27 + digitsVal (c1t.take 27) :=
                Nat.add_le_add_right (Nat.mul_le_mul_right _ hdg9) _
            _ < 9 * 10 ^ 27 + 10 ^ 27 := by omega
            _ ≤ 10 ^ 28 := by norm_num
        · simp
        · rw [ht2, ht1]
          rw [show (0 * 10 + digitOf ch) = digitOf ch from by omega]
          unfold truncLitVal
          rw [hdrop]
          simp only [List.length_cons]
          rw [if_pos (by omega : 28 ≤ c1t.length + 1)]
          have h28 : (28 : Nat) = 27 + 1 := by norm_num
          rw [h28, List.take_succ_cons, digitsVal_cons]
          have hlen27 : (c1t.take 27).length = 27 := by
            rw [List.length_take]
            omega
          rw [hlen27]
          have hpow : (10 : Nat) ^ (28 - 1) = 10 ^ 27 := by norm_num
          rw [hpow]
          simp only [Option.isSome_some, if_true, pow_zero]
          push_cast
          ring_nf

/-- The sign factor of the truncated literal value. -/
theorem truncLitVal_neg_eq (ds1 ds2 : List Char) :
    truncLitVal true ds1 ds2 = -(truncLitVal false ds1 ds2) := by
  unfold truncLitVal
  by_cases h : 28 ≤ (ds1.dropWhile (· = '0')).length
  · rw [if_pos h, if_pos h]
    simp
  · rw [if_neg h, if_neg h]
    simp

/-- `Decimal::tryParse` on a well-formed literal: it succeeds, and the
result is the normalized canonical state denoting the literal truncated
to the parser's 28 counted digits. -/
theorem Decimal.tryParse_literal (neg : Bool) (ds1 ds2 : List Char)
    (h1 : ∀ c ∈ ds1, isDigitCh c = true) (h2 : ∀ c ∈ ds2, isDigitCh c = true)
    (hne : ds1 ≠ []) :
    ∃ d, Decimal.tryParse ((if neg then ['-'] else []) ++ ds1 ++
        (if ds2 = [] then [] else '.' :: ds2)) = some d ∧
      d.Valid ∧ d.IsNormalized ∧ d.ratVal = truncLitVal neg ds1 ds2 := by
  have hnd1 : ∀ c ∈ ds1, c ≠ '.' := fun c hc => digit_ne_dot (h1 c hc)
  have hnd2 : ∀ c ∈ ds2, c ≠ '.' := fun c hc => digit_ne_dot (h2 c hc)
  cases neg
  · obtain ⟨mf, gf, df, sf, hplook, hwf, hmlt, hsfle, hval⟩ :=
      Decimal.parseLoop_literal ds1 ds2 0 h1 h2 hne
    obtain ⟨d0, d1t, rfl⟩ : ∃ a l, ds1 = a :: l := by
      cases ds1 with
      | nil => exact absurd rfl hne
      | cons a l => exact ⟨a, l, rfl⟩
    have hd0 : isDigitCh d0 = true := h1 d0 (List.mem_cons_self _ _)
    have hd0s : ¬ (d0 = '-' ∨ d0 = '+') := digit_ne_minus hd0
    have hstep : Decimal.tryParse ((if false then ['-'] else []) ++ (d0 :: d1t) ++
        (if ds2 = [] then [] else '.' :: ds2)) =
        some (Decimal.normalize (Decimal.mkCanon false mf.toNat sf)) := by
      simp only [if_neg (by simp : ¬ (false = true)), List.nil_append]
      rw [List.cons_append]
      conv_lhs => rw [Decimal.tryParse.eq_def]
      simp only []
      rw [if_neg hd0s]
      rw [if_neg (by simp : ¬ (d0 :: (d1t ++ (if ds2 = [] then [] else '.' :: ds2)) = []))]
      rw [if_neg hd0s]
      rw [← List.cons_append]
      by_cases hds2 : ds2 = []
      · subst hds2
        rw [if_pos rfl, if_pos rfl, if_pos rfl] at hplook
        rw [List.append_nil] at hplook
        rw [if_pos (rfl : ([] : List Char) = []), List.append_nil]
        rw [Decimal.findPoint_digits (d0 :: d1t) 0 hnd1]
        simp only []
        rw [hplook]
        simp only []
        rw [if_neg (by simp)]
        rw [if_neg (Int128.hi_le_of_toNat_lt mf hwf hmlt)]
        simp only []
        rw [if_neg (Int128.hi_le_of_toNat_lt mf hwf hmlt)]
        rw [if_neg (fun he => hd0s (Or.inl he))]
        rw [Decimal.state_eq_mkCanon 0 false mf mf.toNat sf (by simp) hwf rfl hsfle]
      · rw [if_neg hds2, if_neg hds2, if_neg hds2] at hplook
        rw [if_neg hds2]
        rw [Decimal.findPoint_split (d0 :: d1t) ds2 0 hnd1 hnd2]
        simp only []
        have hlencs : ((d0 :: d1t) ++ '.' :: ds2).length - (0 + (d0 :: d1t).length) - 1 =
            ds2.length := by
          simp only [List.length_cons, List.length_append]
          omega
        rw [hlencs]
        rw [hplook]
        simp only []
        rw [if_neg (by simp)]
        rw [if_neg (Int128.hi_le_of_toNat_lt mf hwf hmlt)]
        simp only []
        rw [if_neg (Int128.hi_le_of_toNat_lt mf hwf hmlt)]
        rw [if_neg (fun he => hd0s (Or.inl he))]
        rw [Decimal.state_eq_mkCanon 0 false mf mf.toNat sf (by simp) hwf rfl hsfle]
    obtain ⟨hv1, hv2, hv3⟩ := Decimal.normalize_mkCanon_spec false mf.toNat sf hmlt hsfle
    refine ⟨_, hstep, hv1, hv2, ?_⟩
    rw [hv3, ← hval]
    simp
  · obtain ⟨mf, gf, df, sf, hplook, hwf, hmlt, hsfle, hval⟩ :=
      Decimal.parseLoop_literal ds1 ds2 1 h1 h2 hne
    have hstep : Decimal.tryParse ((if true then ['-'] else []) ++ ds1 ++
        (if ds2 = [] then [] else '.' :: ds2)) =
        some (Decimal.normalize (Decimal.mkCanon true mf.toNat sf)) := by
      rw [show ((if (true : Bool) then (['-'] : List Char) else []) = ['-']) from rfl,
        List.singleton_append]
      by_cases hds2 : ds2 = []
      · subst hds2
        rw [if_pos rfl, if_pos rfl, if_pos rfl] at hplook
        rw [List.append_nil] at hplook
        rw [if_pos (rfl : ([] : List Char) = []), List.append_nil]
        simp only [Decimal.tryParse]
        rw [if_pos (show True ∨ ('-' = '+') from Or.inl trivial)]
        rw [if_neg hne]
        rw [if_pos (show True ∨ ('-' = '+') from Or.inl trivial)]
        rw [Decimal.findPoint_digits ds1 1 hnd1]
        simp only []
        rw [hplook]
        simp only []
        rw [if_neg (by simp)]
        rw [if_neg (Int128.hi_le_of_toNat_lt mf hwf hmlt)]
        simp only []
        rw [if_neg (Int128.hi_le_of_toNat_lt mf hwf hmlt)]
        rw [if_pos (show True from trivial)]
        rw [Decimal.state_eq_mkCanon 2147483648 true mf mf.toNat sf (by simp) hwf rfl hsfle]
      · rw [if_neg hds2, if_neg hds2, if_neg hds2] at hplook
        rw [if_neg hds2]
        rw [List.cons_append]
        simp only [Decimal.tryParse]
        rw [if_pos (show True ∨ ('-' = '+') from Or.inl trivial)]
        rw [if_neg (by simp : ¬ (ds1 ++ '.' :: ds2 = []))]
        rw [if_pos (show True ∨ ('-' = '+') from Or.inl trivial)]
        rw [Decimal.findPoint_split ds1 ds2 1 hnd1 hnd2]
        simp only []
        have hlencs : ('-' :: (ds1 ++ '.' :: ds2)).length - (1 + ds1.length) - 1 =
            ds2.length := by
          simp only [List.length_cons, List.length_append]
          omega
        rw [hlencs]
        rw [hplook]
        simp only []
        rw [if_neg (by simp)]
        rw [if_neg (Int128.hi_le_of_toNat_lt mf hwf hmlt)]
        simp only []
        rw [if_neg (Int128.hi_le_of_toNat_lt mf hwf hmlt)]
        rw [if_pos (show True from trivial)]
        rw [Decimal.state_eq_mkCanon 2147483648 true mf mf.toNat sf (by simp) hwf rfl hsfle]
    obtain ⟨hv1, hv2, hv3⟩ := Decimal.normalize_mkCanon_spec true mf.toNat sf hmlt hsfle
    refine ⟨_, hstep, hv1, hv2, ?_⟩
    rw [hv3, truncLitVal_neg_eq, ← hval]
    norm_num
    ring

/-! ## `toString` digit extraction -/

theorem digits_len_le_of_lt (m n : Nat) (h : m < 10 ^ n) :
    (Nat.digits 10 m).length ≤ n := by
  rcases Nat.eq_zero_or_pos m with rfl | hm
  · simp
  · rw [Nat.digits_len 10 m (by norm_num) (by omega)]
    have := Nat.log_lt_of_lt_pow (by omega : m ≠ 0) h
    omega

theorem Int128.isZero_iff (m : Int128) : (m.isZero = true) ↔ m.toNat = 0 := by
  simp only [Int128.isZero, Int128.toNat, Bool.and_eq_true, decide_eq_true_eq, U64]
  omega

/-- The 64-bit extraction loop produces the base-10 digits, least
significant first, when the fuel covers the digit count. -/
theorem Decimal.extractFast_spec (fuel : Nat) : ∀ (v : Nat) (acc : List Char),
    (Nat.digits 10 v).length ≤ fuel →
    Decimal.extractFast fuel v acc =
      acc ++ (Nat.digits 10 v).map (fun d => Char.ofNat (48 + d)) := by
  induction fuel with
  | zero =>
    intro v acc h
    have hv : v = 0 := by
      have := List.length_eq_zero.mp (Nat.le_zero.mp h)
      exact Nat.digits_eq_nil_iff_eq_zero.mp this
    subst hv
    simp [Decimal.extractFast]
  | succ fuel ih =>
    intro v acc h
    simp only [Decimal.extractFast]
    by_cases hv : 0 < v
    · rw [if_pos hv]
      rw [ih (v / 10) (acc ++ [Char.ofNat (48 + v % 10)]) (by
        rw [Nat.digits_def' (by norm_num : (1:Nat) < 10) hv] at h
        simp only [List.length_cons] at h
        omega)]
      rw [Nat.digits_def' (by norm_num : (1:Nat) < 10) hv]
      simp
    · rw [if_neg hv]
      have hv0 : v = 0 := by omega
      subst hv0
      simp

/-- The manual 128-bit extraction loop produces the base-10 digits of the
mantissa, least significant first. -/
theorem Decimal.extractManual_spec (fuel : Nat) : ∀ (m : Int128) (acc : List Char),
    m.wf → (Nat.digits 10 m.toNat).length ≤ fuel →
    Decimal.extractManual fuel m acc =
      acc ++ (Nat.digits 10 m.toNat).map (fun d => Char.ofNat (48 + d)) := by
  induction fuel with
  | zero =>
    intro m acc hm h
    have hv : m.toNat = 0 := by
      have := List.length_eq_zero.mp (Nat.le_zero.mp h)
      exact Nat.digits_eq_nil_iff_eq_zero.mp this
    rw [hv]
    simp [Decimal.extractManual]
  | succ fuel ih =>
    intro m acc hm h
    simp only [Decimal.extractManual]
    by_cases hz : m.toNat = 0
    · rw [if_neg (by simp [Int128.isZero_iff, hz])]
      rw [hz]
      simp
    · rw [if_pos (by simp [Int128.isZero_iff, hz])]
      by_cases hhi : m.hi = 0
      · rw [if_pos hhi]
        have hlo : m.toNat = m.lo := by
          simp [Int128.toNat, hhi]
        rw [Decimal.extractFast_spec (fuel + 1) m.lo acc (by rw [← hlo]; exact h)]
        rw [hlo]
      · rw [if_neg hhi]
        rw [Int128.mod_ten_eq m hm, Int128.div_ten_eq m hm]
        simp only []
        have hlt : m.toNat < U128 := Int128.toNat_lt m hm
        have hqwf : (⟨m.toNat / 10 % U64, m.toNat / 10 / U64⟩ : Int128).wf := by
          constructor <;> simp only [U64, U128] at hlt ⊢ <;> omega
        have hqval : (⟨m.toNat / 10 % U64, m.toNat / 10 / U64⟩ : Int128).toNat =
            m.toNat / 10 := by
          simp only [Int128.toNat, U64, U128] at *
          omega
        rw [ih ⟨m.toNat / 10 % U64, m.toNat / 10 / U64⟩
          (acc ++ [Char.ofNat (48 + m.toNat % 10)]) hqwf (by
            rw [hqval]
            rw [Nat.digits_def' (by norm_num : (1:Nat) < 10) (by omega)] at h
            simp only [List.length_cons] at h
            omega)]
        rw [hqval]
        rw [Nat.digits_def' (by norm_num : (1:Nat) < 10) (by omega : 0 < m.toNat)]
        simp

/-- Reading the reversed extracted digit characters most significant first
recovers the number. -/
theorem digitsVal_rev_map (l : List Nat) (hl : ∀ d ∈ l, d < 10) :
    digitsVal ((l.map (fun d => Char.ofNat (48 + d))).reverse) = Nat.ofDigits 10 l := by
  induction l with
  | nil => simp [digitsVal_nil]
  | cons d t ih =>
    simp only [List.map_cons, List.reverse_cons]
    rw [digitsVal_append]
    rw [ih (fun x hx => hl x (List.mem_cons_of_mem d hx))]
    rw [digitsVal_singleton]
    have hd := hl d (List.mem_cons_self d t)
    obtain ⟨-, -, hdig, -, -⟩ := chrDigit_facts d hd
    rw [hdig, Nat.ofDigits_cons]
    simp only [List.length_cons, List.length_nil, pow_one]
    ring

theorem dropWhile_eq_self_of_head (l : List Char) (h : l.head? ≠ some '0') :
    l.dropWhile (· = '0') = l := by
  cases l with
  | nil => rfl
  | cons a t =>
    rw [List.dropWhile_cons]
    rw [if_neg (by simpa using h)]

theorem head?_take_pos (l : List Char) (n : Nat) (hn : 0 < n) :
    (l.take n).head? = l.head? := by
  cases l with
  | nil => simp
  | cons a t =>
    cases n with
    | zero => omega
    | succ k => simp

theorem getLast?_drop_lt (l : List Char) (n : Nat) (hn : n < l.length) :
    (l.drop n).getLast? = l.getLast? := by
  rw [List.getLast?_eq_getElem?, List.getLast?_eq_getElem?, List.getElem?_drop]
  rw [List.length_drop]
  congr 1
  omega

/-- `Decimal::toString` of a nonzero canonical state decomposes as an
optional sign, integer digits and fractional digits whose value, scale and
digit counts recover the state; the leading digit is nonzero (or the
integer part is the single digit 0), and when the mantissa has no trailing
zero the fractional part is minimal. -/
theorem Decimal.toString_literal (σn : Bool) (M s : Nat)
    (hM : M < 10 ^ 28) (hs : s ≤ 28) (hM0 : M ≠ 0) :
    ∃ ds1 ds2 : List Char,
      (Decimal.mkCanon σn M s).toString =
        (if σn then ['-'] else []) ++ ds1 ++ (if ds2 = [] then [] else '.' :: ds2) ∧
      (∀ c ∈ ds1, isDigitCh c = true) ∧ (∀ c ∈ ds2, isDigitCh c = true) ∧
      ds1 ≠ [] ∧ ds2.length = s ∧ digitsVal (ds1 ++ ds2) = M ∧
      (ds1.dropWhile (· = '0')).length + ds2.length ≤ 28 ∧
      (ds1 = ['0'] ∨ ds1.head? ≠ some '0') ∧
      (ds2 = [] ↔ s = 0) ∧
      (¬ (10 ∣ M) → 0 < s → ds2.getLast? ≠ some '0') := by
  have hMU : M < U32 * U32 * U32 := lt_trans hM (by norm_num [U32])
  have hdl : (Nat.digits 10 M).length ≤ 28 := digits_len_le_of_lt M 28 hM
  have hdne : Nat.digits 10 M ≠ [] := Nat.digits_ne_nil_iff_ne_zero.mpr hM0
  have hDchars : ∀ c ∈ (Nat.digits 10 M).map (fun d => Char.ofNat (48 + d)),
      isDigitCh c = true := by
    intro c hc
    obtain ⟨d, hd, rfl⟩ := List.mem_map.mp hc
    exact (chrDigit_facts d (Nat.digits_lt_base (by norm_num) hd)).2.1
  have hDne : (Nat.digits 10 M).map (fun d => Char.ofNat (48 + d)) ≠ [] := by
    simpa using hdne
  have hDlen : ((Nat.digits 10 M).map (fun d => Char.ofNat (48 + d))).length =
      (Nat.digits 10 M).length := List.length_map _ _
  have hDval : digitsVal (((Nat.digits 10 M).map (fun d => Char.ofNat (48 + d))).reverse) =
      M := by
    rw [digitsVal_rev_map _ (fun d hd => Nat.digits_lt_base (by norm_num) hd)]
    exact Nat.ofDigits_digits 10 M
  have hDlast : ∃ dl, ((Nat.digits 10 M).map (fun d => Char.ofNat (48 + d))).getLast? =
      some (Char.ofNat (48 + dl)) ∧ dl ≠ 0 ∧ dl < 10 := by
    refine ⟨(Nat.digits 10 M).getLast hdne, ?_, Nat.getLast_digit_ne_zero 10 hM0, ?_⟩
    · rw [List.getLast?_map, List.getLast?_eq_getLast _ hdne]
      rfl
    · exact Nat.digits_lt_base (by norm_num) (List.getLast_mem hdne)
  have hDhead : ((Nat.digits 10 M).map (fun d => Char.ofNat (48 + d))).head? =
      some (Char.ofNat (48 + M % 10)) := by
    rw [List.head?_map, Nat.digits_def' (by norm_num : (1:Nat) < 10) (by omega)]
    rfl
  have hrevne : (((Nat.digits 10 M).map (fun d => Char.ofNat (48 + d))).reverse) ≠ [] := by
    simpa using hDne
  have hrevhead : ∀ dl, dl ≠ 0 → dl < 10 →
      ((Nat.digits 10 M).map (fun d => Char.ofNat (48 + d))).getLast? =
        some (Char.ofNat (48 + dl)) →
      (((Nat.digits 10 M).map (fun d => Char.ofNat (48 + d))).reverse).head? ≠ some '0' := by
    intro dl hdl hdl10 hlast
    rw [List.head?_reverse, hlast]
    intro hc
    injection hc with hc
    exact hdl ((chrDigit_facts dl hdl10).2.2.2.1.mp hc)
  -- unfold toString
  unfold Decimal.toString
  rw [show (Decimal.mkCanon σn M s).isZero = decide (M = 0) from
    Decimal.isZero_mkCanon σn M s hMU]
  rw [if_neg (by simp [hM0])]
  rw [Decimal.mantissaAsInt128_mkCanon σn M s hMU]
  have hU3 : M / U64 < 2 ^ 32 := by
    have : (10:Nat) ^ 28 < 2 ^ 96 := by norm_num
    simp only [U64]
    omega
  rw [show (⟨M % U64, M / U64⟩ : Int128).iabs = ⟨M % U64, M / U64⟩ from by
    unfold Int128.iabs
    rw [if_neg (by
      simp only [Int128.isNegative, sint64, decide_eq_true_eq]
      rw [if_pos (by simp only [U64] at *; omega)]
      simp only [not_lt]
      exact Int.natCast_nonneg _)]]
  rw [Decimal.scale_mkCanon σn M s (by omega), Decimal.isNegative_mkCanon σn M s (by omega)]
  have hdig : (if (⟨M % U64, M / U64⟩ : Int128).hi = 0 then
      Decimal.extractFast 64 (⟨M % U64, M / U64⟩ : Int128).lo []
      else Decimal.extractManual 64 ⟨M % U64, M / U64⟩ []) =
      (Nat.digits 10 M).map (fun d => Char.ofNat (48 + d)) := by
    show (if M / U64 = 0 then Decimal.extractFast 64 (M % U64) []
      else Decimal.extractManual 64 ⟨M % U64, M / U64⟩ []) = _
    by_cases h0 : M / U64 = 0
    · rw [if_pos h0]
      have hMlt : M < U64 := by
        simp only [U64] at *
        omega
      rw [Nat.mod_eq_of_lt hMlt]
      rw [Decimal.extractFast_spec 64 M [] (by omega)]
      rfl
    · rw [if_neg h0]
      have hwfm : (⟨M % U64, M / U64⟩ : Int128).wf := by
        constructor <;> simp only [U64] at * <;> omega
      have htm : (⟨M % U64, M / U64⟩ : Int128).toNat = M := by
        simp only [Int128.toNat, U64]
        omega
      rw [Decimal.extractManual_spec 64 ⟨M % U64, M / U64⟩ [] hwfm (by rw [htm]; omega)]
      rw [htm]
      rfl
  simp only [hdig]
  rw [if_neg hDne]
  by_cases hspos : 0 < s
  · rw [if_pos hspos]
    by_cases hcnt : ((Nat.digits 10 M).map (fun d => Char.ofNat (48 + d))).length ≤ s
    · rw [if_pos hcnt]
      have hds2ne : List.replicate (s - (Nat.digits 10 M).length) '0' ++
          ((Nat.digits 10 M).map (fun d => Char.ofNat (48 + d))).reverse ≠ [] := by
        simp [hrevne]
      refine ⟨['0'], List.replicate (s - (Nat.digits 10 M).length) '0' ++
        ((Nat.digits 10 M).map (fun d => Char.ofNat (48 + d))).reverse,
        ?_, ?_, ?_, by simp, ?_, ?_, ?_, Or.inl rfl, ?_, ?_⟩
      · rw [if_neg hds2ne]
        rw [hDlen]
        cases σn <;> simp
      · intro c hc
        simp only [List.mem_singleton] at hc
        subst hc
        decide
      · intro c hc
        rcases List.mem_append.mp hc with hc | hc
        · rw [List.eq_of_mem_replicate hc]
          decide
        · exact hDchars c (List.mem_reverse.mp hc)
      · rw [hDlen] at hcnt
        simp only [List.length_append, List.length_replicate, List.length_reverse, hDlen]
        omega
      · rw [digitsVal_append, digitsVal_singleton]
        rw [show digitOf '0' = 0 from rfl]
        rw [digitsVal_append]
        rw [digitsVal_zeros _ (fun c hc => List.eq_of_mem_replicate hc)]
        rw [hDval]
        omega
      · rw [show (['0'] : List Char).dropWhile (· = '0') = [] from rfl]
        rw [hDlen] at hcnt
        simp only [List.length_nil, List.length_append, List.length_replicate,
          List.length_reverse, hDlen]
        omega
      · exact ⟨fun h => absurd h hds2ne, fun h => absurd h (by omega)⟩
      · intro hndvd _
        rw [List.getLast?_append_of_ne_nil _ hrevne]
        rw [List.getLast?_reverse, hDhead]
        intro hc
        injection hc with hc
        have hm10 : M % 10 ≠ 0 := by omega
        exact hm10 ((chrDigit_facts (M % 10) (by omega)).2.2.2.1.mp hc)
    · rw [if_neg hcnt]
      have hsltL : s < (Nat.digits 10 M).length := by
        rw [hDlen] at hcnt
        omega
      have htne : (((Nat.digits 10 M).map (fun d => Char.ofNat (48 + d))).take s) ≠ [] := by
        intro hc
        have := congrArg List.length hc
        simp only [List.length_take, hDlen, List.length_nil] at this
        omega
      have htrevne : ((((Nat.digits 10 M).map (fun d => Char.ofNat (48 + d))).take s)).reverse ≠
          [] := by
        simpa using htne
      obtain ⟨dl, hdl, hdlne, hdl10⟩ := hDlast
      have hdropne : (((Nat.digits 10 M).map (fun d => Char.ofNat (48 + d))).drop s) ≠ [] := by
        intro hc
        have := congrArg List.length hc
        simp only [List.length_drop, hDlen, List.length_nil] at this
        omega
      have hdrophead : ((((Nat.digits 10 M).map (fun d => Char.ofNat (48 + d))).drop s)).reverse.head? ≠
          some '0' := by
        rw [List.head?_reverse]
        rw [getLast?_drop_lt _ s (by rw [hDlen]; omega)]
        rw [hdl]
        intro hc
        injection hc with hc
        exact hdlne ((chrDigit_facts dl hdl10).2.2.2.1.mp hc)
      refine ⟨(((Nat.digits 10 M).map (fun d => Char.ofNat (48 + d))).drop s).reverse,
        (((Nat.digits 10 M).map (fun d => Char.ofNat (48 + d))).take s).reverse,
        ?_, ?_, ?_, by simpa using hdropne, ?_, ?_, ?_, Or.inr hdrophead, ?_, ?_⟩
      · rw [if_neg htrevne]
        cases σn <;> simp
      · intro c hc
        exact hDchars c (List.mem_of_mem_drop (List.mem_reverse.mp hc))
      · intro c hc
        exact hDchars c (List.mem_of_mem_take (List.mem_reverse.mp hc))
      · simp only [List.length_reverse, List.length_take, hDlen]
        omega
      · rw [← List.reverse_append, List.take_append_drop, hDval]
      · have hdw : ((((Nat.digits 10 M).map (fun d => Char.ofNat (48 + d))).drop s).reverse).dropWhile
            (· = '0') = (((Nat.digits 10 M).map (fun d => Char.ofNat (48 + d))).drop s).reverse :=
          dropWhile_eq_self_of_head _ hdrophead
        rw [hdw]
        simp only [List.length_reverse, List.length_drop, List.length_take, hDlen]
        omega
      · constructor
        · intro h
          exact absurd h htrevne
        · intro h
          omega
      · intro hndvd _
        rw [List.getLast?_reverse]
        rw [head?_take_pos _ s hspos, hDhead]
        intro hc
        injection hc with hc
        have hm10 : M % 10 ≠ 0 := by omega
        exact hm10 ((chrDigit_facts (M % 10) (by omega)).2.2.2.1.mp hc)
  · rw [if_neg hspos]
    have hs0 : s = 0 := by omega
    have hrevhead' : (((Nat.digits 10 M).map (fun d => Char.ofNat (48 + d))).reverse).head? ≠
        some '0' := by
      obtain ⟨dl, hdl, hdlne, hdl10⟩ := hDlast
      exact hrevhead dl hdlne hdl10 hdl
    refine ⟨((Nat.digits 10 M).map (fun d => Char.ofNat (48 + d))).reverse, [],
      ?_, ?_, ?_, hrevne, by simp [hs0], ?_, ?_, Or.inr hrevhead', by simp [hs0], ?_⟩
    · rw [if_pos rfl]
      cases σn <;> simp
    · intro c hc
      exact hDchars c (List.mem_reverse.mp hc)
    · intro c hc
      simp at hc
    · rw [List.append_nil, hDval]
    · rw [dropWhile_eq_self_of_head _ hrevhead']
      simp only [List.length_reverse, hDlen, List.length_nil]
      omega
    · intro _ h0
      omega

/-- Below the cap the truncated value is the exact literal value. -/
theorem truncLitVal_eq_litVal (neg : Bool) (ds1 ds2 : List Char)
    (h : (ds1.dropWhile (· = '0')).length + ds2.length ≤ 28) :
    truncLitVal neg ds1 ds2 = litVal neg ds1 ds2 := by
  by_cases hc : 28 ≤ (ds1.dropWhile (· = '0')).length
  · have hds2 : ds2 = [] := List.length_eq_zero.mp (by omega)
    subst hds2
    rw [truncLitVal_big neg ds1 [] hc]
    unfold litVal
    rw [List.take_of_length_le (by omega), List.append_nil]
    rw [digitsVal_eq_dropWhile]
    simp only [List.length_nil, pow_zero, div_one]
  · rw [truncLitVal_small neg ds1 ds2 (by omega)]
    have hk : min ds2.length (28 - (ds1.dropWhile (· = '0')).length) = ds2.length := by
      omega
    rw [hk, List.take_length]
    unfold litVal
    ring

/-- Claim C4 (amended): Decimal string parsing caps accumulated digits at
28, where every digit after the decimal point counts — including leading
fractional zeros — while integer-part leading zeros are skipped; once the
cap is reached further digits are dropped and the recorded scale is
corrected to the fractional digits actually consumed.  The parsed value
equals the literal truncated to its first 28 so-counted digits, and a
literal with at most 28 counted digits parses exactly. -/
theorem claim_C4_amended_parse_truncation (neg : Bool) (ds1 ds2 : List Char)
    (h1 : ∀ c ∈ ds1, isDigitCh c = true) (h2 : ∀ c ∈ ds2, isDigitCh c = true)
    (hne : ds1 ≠ []) :
    ∃ d, Decimal.tryParse ((if neg then ['-'] else []) ++ ds1 ++
        (if ds2 = [] then [] else '.' :: ds2)) = some d ∧
      d.Valid ∧ d.IsNormalized ∧ d.ratVal = truncLitVal neg ds1 ds2 ∧
      ((ds1.dropWhile (· = '0')).length + ds2.length ≤ 28 →
        d.ratVal = litVal neg ds1 ds2) := by
  obtain ⟨d, hp, hv, hn, hr⟩ := Decimal.tryParse_literal neg ds1 ds2 h1 h2 hne
  exact ⟨d, hp, hv, hn, hr, fun hcnt => by
    rw [hr, truncLitVal_eq_litVal neg ds1 ds2 hcnt]⟩

theorem claim_C4_amended_witness :
    ((∀ c ∈ (['1'] : List Char), isDigitCh c = true) ∧
      (∀ c ∈ (['5'] : List Char), isDigitCh c = true) ∧ (['1'] : List Char) ≠ []) ∧
    (∃ d, Decimal.tryParse ((if false then ['-'] else []) ++ ['1'] ++
        (if (['5'] : List Char) = [] then [] else '.' :: ['5'])) = some d ∧
      d.Valid ∧ d.IsNormalized ∧ d.ratVal = truncLitVal false ['1'] ['5'] ∧
      (((['1'] : List Char).dropWhile (· = '0')).length + (['5'] : List Char).length ≤ 28 →
        d.ratVal = litVal false ['1'] ['5'])) :=
  ⟨⟨by decide, by decide, by decide⟩,
    claim_C4_amended_parse_truncation false ['1'] ['5'] (by decide) (by decide) (by decide)⟩

/-- Claim C3 (amended): for every valid Decimal whose mantissa has at most
28 digits, parsing the formatted string succeeds and compares equal
(`operator==`) to the original — the numerical round-trip holds — and for
normalized states the formatted string is a canonical literal.
(`Decimal::maxValue()`, whose mantissa has 29 digits, is excluded: its
round-trip fails, see the separate counterexample.) -/
theorem claim_C3_amended_roundtrip (x : Decimal) (hx : x.Valid)
    (hM : x.mantNat < 10 ^ 28) :
    (∃ y, Decimal.tryParse x.toString = some y ∧ y.Valid ∧ y.IsNormalized ∧
      y.ratVal = x.ratVal ∧ y.eqOp x = true) ∧
    (x.IsNormalized → canonicalLit x.toString) := by
  obtain ⟨σ, s, hs, hxeq, -⟩ := Decimal.mkCanon_eta x hx
  have hMU : x.mantNat < U32 * U32 * U32 := Decimal.mantNat_lt x hx
  by_cases hM0 : x.mantNat = 0
  · have hzero : x.toString = ['0'] := by
      rw [hxeq]
      unfold Decimal.toString
      rw [show (Decimal.mkCanon σ x.mantNat s).isZero = decide (x.mantNat = 0) from
        Decimal.isZero_mkCanon σ x.mantNat s hMU]
      rw [if_pos (by simp [hM0])]
    rw [hzero]
    constructor
    · refine ⟨⟨0, 0, 0, 0⟩, rfl, ?_, Or.inl rfl, ?_, ?_⟩
      · exact ⟨by norm_num [U32], by norm_num [U32], by norm_num [U32], 0, 0,
          Or.inl rfl, by omega, by norm_num⟩
      · rw [hxeq]
        rw [Decimal.ratVal_mkCanon σ x.mantNat s hMU (by omega), hM0]
        unfold Decimal.ratVal
        norm_num [Decimal.scale, Decimal.isNegative]
      · rw [hxeq]
        unfold Decimal.eqOp
        rw [if_pos ⟨by norm_num [Decimal.isZero],
          by rw [Decimal.isZero_mkCanon σ x.mantNat s hMU]; simp [hM0]⟩]
    · intro _
      exact ⟨['0'], [], Or.inl rfl, by decide, by decide, by decide, Or.inl rfl,
        Or.inl (Or.inl rfl)⟩
  · obtain ⟨ds1, ds2, hshape, hd1, hd2, hne, hlen2, hdv, hcnt, hhead, hiff, hmin⟩ :=
      Decimal.toString_literal σ x.mantNat s hM hs hM0
    obtain ⟨y, hp, hvy, hny, hry⟩ := Decimal.tryParse_literal σ ds1 ds2 hd1 hd2 hne
    have hxts : x.toString = (if σ then ['-'] else []) ++ ds1 ++
        (if ds2 = [] then [] else '.' :: ds2) := by
      conv_lhs => rw [hxeq]
      exact hshape
    have hrx : x.ratVal = (if σ then -1 else 1) * (x.mantNat : ℚ) / 10 ^ s := by
      conv_lhs => rw [hxeq]
      exact Decimal.ratVal_mkCanon σ x.mantNat s hMU (by omega)
    have hvals : truncLitVal σ ds1 ds2 = x.ratVal := by
      by_cases hc : 28 ≤ (ds1.dropWhile (· = '0')).length
      · have hds2 : ds2 = [] := List.length_eq_zero.mp (by omega)
        have hs0 : s = 0 := hiff.mp hds2
        subst hds2
        rw [truncLitVal_big σ ds1 [] hc]
        rw [List.take_of_length_le (by omega)]
        rw [digitsVal_eq_dropWhile]
        rw [List.append_nil] at hdv
        rw [hdv, hrx, hs0]
        norm_num
      · rw [truncLitVal_small σ ds1 ds2 (by omega)]
        have hk : min ds2.length (28 - (ds1.dropWhile (· = '0')).length) = ds2.length := by
          omega
        rw [hk, List.take_length, hdv, hrx, hlen2]
        ring
    refine ⟨⟨y, by rw [hxts]; exact hp, hvy, hny, by rw [hry, hvals], ?_⟩, ?_⟩
    · exact Decimal.eqOp_of_ratVal y x hvy hx (by rw [hry, hvals])
    · intro hnorm
      have hnorm' : s = 0 ∨ ¬ (10 ∣ x.mantNat) := by
        rcases hnorm with h | h
        · left
          rw [hxeq] at h
          rw [Decimal.scale_mkCanon σ x.mantNat s (by omega)] at h
          exact h
        · right
          rw [hxeq] at h
          rw [Decimal.mantNat_mkCanon σ x.mantNat s hMU] at h
          exact h
      rw [hxts]
      refine ⟨ds1, ds2, ?_, hd1, hd2, hne, hhead, ?_⟩
      · by_cases hds2 : ds2 = []
        · subst hds2
          cases σ
          · left
            simp
          · right
            left
            simp
        · rw [if_neg hds2]
          cases σ
          · right
            right
            left
            simp
          · right
            right
            right
            simp
      · by_cases hds2 : ds2 = []
        · subst hds2
          left
          cases σ
          · left
            simp
          · right
            simp
        · right
          have hspos : 0 < s := by
            rcases Nat.eq_zero_or_pos s with h0 | h0
            · exact absurd (hiff.mpr h0) hds2
            · exact h0
          have hndvd : ¬ (10 ∣ x.mantNat) := by
            rcases hnorm' with h | h
            · omega
            · exact h
          exact ⟨hds2, hmin hndvd hspos⟩

theorem claim_C3_amended_witness :
    ((⟨131072, 123, 0, 0⟩ : Decimal).Valid ∧
      (⟨131072, 123, 0, 0⟩ : Decimal).mantNat < 10 ^ 28) ∧
    ((∃ y, Decimal.tryParse (⟨131072, 123, 0, 0⟩ : Decimal).toString = some y ∧ y.Valid ∧
        y.IsNormalized ∧ y.ratVal = (⟨131072, 123, 0, 0⟩ : Decimal).ratVal ∧
        y.eqOp ⟨131072, 123, 0, 0⟩ = true) ∧
      ((⟨131072, 123, 0, 0⟩ : Decimal).IsNormalized →
        canonicalLit (⟨131072, 123, 0, 0⟩ : Decimal).toString)) := by
  have hv : (⟨131072, 123, 0, 0⟩ : Decimal).Valid :=
    ⟨by norm_num [U32], by norm_num [U32], by norm_num [U32], 0, 2, Or.inl rfl,
      by omega, by norm_num⟩
  exact ⟨⟨hv, by norm_num [Decimal.mantNat, U32]⟩,
    claim_C3_amended_roundtrip ⟨131072, 123, 0, 0⟩ hv (by norm_num [Decimal.mantNat, U32])⟩
